import Mathlib

/-!
Verification of the host-independent computational core of the PTDetailing
repository: the 2-D geometry kernel (`lib/utils/geometry.py`), the PTD export
parser (`lib/ptd_parser/parser.py`), the tendon grouping engine
(`lib/revit_backend/grouping.py`) and the alignment search
(`lib/revit_backend/alignment.py`).

Python floats are modelled as real numbers (or rationals where the code is
purely arithmetical), Python lists as Lean lists, and fallible conversions
(`float(...)`, tuple unpacking) as `Option`.
-/

set_option maxRecDepth 4000

namespace PTD

/-! ## Geometry kernel: point distance and Hausdorff distances
Source: `lib/utils/geometry.py`. Points are `(x, y)` tuples of floats,
modelled as `ℝ × ℝ`. -/

/-- Model of `_point_distance(pa, pb)`: Euclidean distance `sqrt(dx*dx + dy*dy)`. -/
noncomputable def _point_distance (pa pb : ℝ × ℝ) : ℝ :=
  Real.sqrt ((pa.1 - pb.1) * (pa.1 - pb.1) + (pa.2 - pb.2) * (pa.2 - pb.2))

/-- Model of `min(_point_distance(pa, pb) for pb in b)` for non-empty `b`
(Python's `min` over a non-empty sequence; `0` supplied for the empty case,
which the caller never reaches). -/
noncomputable def minDist (pa : ℝ × ℝ) : List (ℝ × ℝ) → ℝ
  | [] => 0
  | q :: qs => qs.foldl (fun m pb => min m (_point_distance pa pb)) (_point_distance pa q)

/-- Model of `_directed_hausdorff(a, b)`: `0` if either list is empty, else the
running maximum (`max_min`, starting at `0.0`) of `minDist pa b` over `pa ∈ a`. -/
noncomputable def _directed_hausdorff (a b : List (ℝ × ℝ)) : ℝ :=
  if a = [] ∨ b = [] then 0
  else a.foldl (fun mm pa => max mm (minDist pa b)) 0

/-- Model of `hausdorff_distance(a, b)`. -/
noncomputable def hausdorff_distance (a b : List (ℝ × ℝ)) : ℝ :=
  max (_directed_hausdorff a b) (_directed_hausdorff b a)

/-- Cyclic successor pairs `(hull[i], hull[(i+1) % n])` of a list. -/
def cyclicPairs {α : Type*} (l : List α) : List (α × α) :=
  l.zip (l.rotate 1)

/-- Loop body of `pt_in_convex`: walks the edge list carrying the `sign`
variable (`none` models Python's `sign = None`); an inconsistent sign returns
`false`, near-zero cross products (tolerance `1e-9`) are skipped. -/
noncomputable def ptInConvexGo (pt : ℝ × ℝ) : Option Bool → List ((ℝ × ℝ) × (ℝ × ℝ)) → Bool
  | _, [] => true
  | sign, (p1, p2) :: rest =>
    let cross := (pt.1 - p1.1) * (p2.2 - p1.2) - (pt.2 - p1.2) * (p2.1 - p1.1)
    if |cross| < (1 / 1000000000 : ℝ) then ptInConvexGo pt sign rest
    else
      let s : Bool := decide (0 < cross)
      match sign with
      | none => ptInConvexGo pt (some s) rest
      | some s0 => if s0 = s then ptInConvexGo pt (some s0) rest else false

/-- Model of `pt_in_convex(pt, hull)`: `False` for hulls with fewer than
three vertices, else the consistent-sign test over all cyclic edges. -/
noncomputable def pt_in_convex (pt : ℝ × ℝ) (hull : List (ℝ × ℝ)) : Bool :=
  if hull.length < 3 then false
  else ptInConvexGo pt none (cyclicPairs hull)

/-- Model of `directed_hausdorff_outside(a, hull)`: filter `a` to the points
not inside the hull; `0` when nothing is outside, else the directed Hausdorff
distance from the outside points to the hull vertices. -/
noncomputable def directed_hausdorff_outside (a hull : List (ℝ × ℝ)) : ℝ :=
  if a = [] ∨ hull = [] then 0
  else
    let outside_pts := a.filter (fun p => !pt_in_convex p hull)
    if outside_pts = [] then 0
    else _directed_hausdorff outside_pts hull


/-! ## PTD export parser
Source: `lib/ptd_parser/parser.py` and `lib/ptd_parser/_models_py3.py`.
The file is modelled as a list of lines (Python iterates `for line in fh`);
floats are exact rationals; `float(...)` conversion failures (which abort the
whole parse with a `ValueError`) are modelled by `Option`, `none` meaning the
parse raises. The regular expressions of the source are hand-compiled to
deterministic matchers below (each of the source patterns is deterministic
except `_HEADER_COORDS`, whose greedy `.*` is modelled by a rightmost-first
scan, matching the backtracking order of the `re` engine). -/

/-- Python `str.strip` whitespace class (space, tab, newline, return, vertical
tab, form feed). -/
def isPySpace (c : Char) : Bool :=
  c = ' ' || c = '\t' || c = '\n' || c = '\r' || c = '\x0b' || c = '\x0c'

/-- Model of `line.strip()`. -/
def pyStrip (s : List Char) : List Char :=
  ((s.dropWhile isPySpace).reverse.dropWhile isPySpace).reverse

/-- Regex `\s*`: drop leading whitespace. -/
def skipSpaces (s : List Char) : List Char := s.dropWhile isPySpace

/-- Match a literal pattern at the head of the input, returning the rest. -/
def stripLit : List Char → List Char → Option (List Char)
  | [], s => some s
  | _ :: _, [] => none
  | p :: ps, c :: cs => if c = p then stripLit ps cs else none

/-- Case-insensitive variant of `stripLit` (for `re.IGNORECASE` patterns). -/
def stripLitCI : List Char → List Char → Option (List Char)
  | [], s => some s
  | _ :: _, [] => none
  | p :: ps, c :: cs => if c.toLower = p.toLower then stripLitCI ps cs else none

/-- Case-insensitive substring search (for `_TABLE_START.search`). -/
def hasInfixCI (pat : List Char) : List Char → Bool
  | [] => (stripLitCI pat []).isSome
  | c :: rest => (stripLitCI pat (c :: rest)).isSome || hasInfixCI pat rest

/-- Numeric value of a digit string (`\d+` capture fed to `int(...)`). -/
def natOfDigits (ds : List Char) : Nat :=
  ds.foldl (fun n c => 10 * n + (c.toNat - '0'.toNat)) 0

/-- Rational value `intPart.fracPart` (built with `mkRat` so that it reduces
inside the kernel; the value is the decimal the float literal denotes). -/
def ratOfParts (intPart fracPart : List Char) : ℚ :=
  mkRat (natOfDigits intPart * 10 ^ fracPart.length + natOfDigits fracPart)
    (10 ^ fracPart.length)

/-- Value of `float(s)` on a `[\d\.]+` capture: at most one dot and at least
one digit, else a `ValueError` (`none`). -/
def dottedToRat (run : List Char) : Option ℚ :=
  match run.splitOn '.' with
  | [a] => if a = [] then none else some (natOfDigits a : ℚ)
  | [a, b] => if a = [] && b = [] then none else some (ratOfParts a b)
  | _ => none

/-- Multiplication of exact rationals written with `mkRat`, so that concrete
parses reduce inside the kernel (`Rat.mul` is marked irreducible in the
library); the value is the ordinary product. Used wherever the source
multiplies floats. -/
def ratMul (a b : ℚ) : ℚ := mkRat (a.num * b.num) (a.den * b.den)

/-- Model of Python `float(s)` on an arbitrary string: optional sign, decimal
mantissa, optional exponent, surrounding whitespace allowed. (The exotic
accepted forms `inf`, `nan` and digit-group underscores are not modelled;
no claim depends on them.) -/
def pyFloat (cs0 : List Char) : Option ℚ :=
  let cs := pyStrip cs0
  let signAndRest : ℚ × List Char :=
    match cs with
    | '+' :: r => (1, r)
    | '-' :: r => (-1, r)
    | r => (1, r)
  let sgn := signAndRest.1
  let r := signAndRest.2
  let intPart := r.takeWhile Char.isDigit
  let r1 := r.dropWhile Char.isDigit
  let fracAndRest : Option (List Char × List Char) :=
    match r1 with
    | '.' :: r2 => some (r2.takeWhile Char.isDigit, r2.dropWhile Char.isDigit)
    | _ => some ([], r1)
  match fracAndRest with
  | none => none
  | some (fracPart, r3) =>
    if intPart = [] && fracPart = [] then none
    else
      let mant : ℚ := ratMul sgn (ratOfParts intPart fracPart)
      match r3 with
      | [] => some mant
      | 'e' :: r4 => pyFloatExp mant r4
      | 'E' :: r4 => pyFloatExp mant r4
      | _ => none
where
  /-- Exponent part: optional sign then at least one digit, then end. -/
  pyFloatExp (mant : ℚ) (r : List Char) : Option ℚ :=
    let eSignAndRest : ℤ × List Char :=
      match r with
      | '+' :: r5 => (1, r5)
      | '-' :: r5 => (-1, r5)
      | r5 => (1, r5)
    let eds := eSignAndRest.2.takeWhile Char.isDigit
    let rest := eSignAndRest.2.dropWhile Char.isDigit
    if eds = [] || rest ≠ [] then none
    else if 0 ≤ eSignAndRest.1 then some (ratMul mant ((10 ^ natOfDigits eds : ℕ) : ℚ))
    else some (ratMul mant (mkRat 1 (10 ^ natOfDigits eds)))

/-- Python `int(q)` on a float: truncation toward zero (`Int.div` is
T-division, matching Python's `int()` on the reduced fraction). -/
def pyTrunc (q : ℚ) : ℤ :=
  Int.div q.num (q.den : ℤ)

/-- Matcher for `_HEADER_TENDON_NO = ^Tendon No\.\s*(\d+)`. -/
def matchTendonNo (s : List Char) : Option Nat :=
  match stripLit "Tendon No.".toList s with
  | none => none
  | some r =>
    let ds := (skipSpaces r).takeWhile Char.isDigit
    if ds = [] then none else some (natOfDigits ds)

/-- Regex fragment `\s*:\s*`. -/
def afterColon (s : List Char) : Option (List Char) :=
  match skipSpaces s with
  | ':' :: r => some (skipSpaces r)
  | _ => none

/-- Matcher for `_HEADER_LENGTH = ^Length\s*:\s*(\d+\.\d+)m` (value in metres). -/
def matchLength (s : List Char) : Option ℚ :=
  match stripLit "Length".toList s with
  | none => none
  | some r =>
    match afterColon r with
    | none => none
    | some r1 =>
      let a := r1.takeWhile Char.isDigit
      match a, r1.dropWhile Char.isDigit with
      | [], _ => none
      | _ :: _, '.' :: r2 =>
        let b := r2.takeWhile Char.isDigit
        match b, r2.dropWhile Char.isDigit with
        | [], _ => none
        | _ :: _, 'm' :: _ => some (ratOfParts a b)
        | _ :: _, _ => none
      | _ :: _, _ => none

/-- Tail of `_HEADER_COORDS` after a candidate `start:` position:
`\s*\(([^)]+)\)\s*end:\s*\(([^)]+)\)`, returning the two raw captures. -/
def parseCoordTail (s : List Char) : Option (List Char × List Char) :=
  match skipSpaces s with
  | '(' :: r1 =>
    let g1 := r1.takeWhile (fun c => c ≠ ')')
    match g1, r1.dropWhile (fun c => c ≠ ')') with
    | [], _ => none
    | _ :: _, ')' :: r2 =>
      match stripLitCI "end:".toList (skipSpaces r2) with
      | none => none
      | some r3 =>
        match skipSpaces r3 with
        | '(' :: r4 =>
          let g2 := r4.takeWhile (fun c => c ≠ ')')
          match g2, r4.dropWhile (fun c => c ≠ ')') with
          | [], _ => none
          | _ :: _, ')' :: _ => some (g1, g2)
          | _ :: _, _ => none
        | _ => none
    | _ :: _, _ => none
  | _ => none

/-- Scan for the rightmost `start:` (case-insensitive) whose tail matches,
modelling the greedy backtracking of `.*start:...` in `_HEADER_COORDS`. -/
def coordsScan : List Char → Option (List Char × List Char)
  | [] => none
  | c :: rest =>
    match coordsScan rest with
    | some g => some g
    | none =>
      match stripLitCI "start:".toList (c :: rest) with
      | some r => parseCoordTail r
      | none => none

/-- Matcher for `_HEADER_COORDS` (case-insensitive, anchored prefix
`End Point co-orinates`, greedy `.*` before `start:`). -/
def matchCoords (s : List Char) : Option (List Char × List Char) :=
  match stripLitCI "End Point co-orinates".toList s with
  | none => none
  | some rest => coordsScan rest

/-- Model of `_coord_pair(raw)`: split on a comma into exactly two parts,
strip and `float(...)` each, convert metres to millimetres. -/
def _coord_pair (raw : List Char) : Option (ℚ × ℚ) :=
  match raw.splitOn ',' with
  | [x, y] =>
    match pyFloat x, pyFloat y with
    | some a, some b => some (ratMul a 1000, ratMul b 1000)
    | _, _ => none
  | _ => none

/-- Matcher for `_HEADER_TENDON_TYPE = ^Type\s*:\s*(\d+)`. -/
def matchTendonType (s : List Char) : Option Nat :=
  match stripLit "Type".toList s with
  | none => none
  | some r =>
    match afterColon r with
    | none => none
    | some r1 =>
      let ds := r1.takeWhile Char.isDigit
      if ds = [] then none else some (natOfDigits ds)

/-- Matcher for `_HEADER_STRAND_TYPE = ^Type of strands\s*:\s*([\d\.]+)`;
`some none` models a match whose `float(...)` conversion raises. -/
def matchStrandType (s : List Char) : Option (Option ℚ) :=
  match stripLit "Type of strands".toList s with
  | none => none
  | some r =>
    match afterColon r with
    | none => none
    | some r1 =>
      let run := r1.takeWhile (fun c => c.isDigit || c = '.')
      if run = [] then none else some (dottedToRat run)

/-- Matcher for `_HEADER_STRAND_NO = ^Number of strands\s*:\s*(\d+)`. -/
def matchStrandNo (s : List Char) : Option Nat :=
  match stripLit "Number of strands".toList s with
  | none => none
  | some r =>
    match afterColon r with
    | none => none
    | some r1 =>
      let ds := r1.takeWhile Char.isDigit
      if ds = [] then none else some (natOfDigits ds)

/-- Matcher for `_HEADER_START` / `_HEADER_END` (case-insensitive): the
keyword, `\s*:\s*`, then `Live End` or `Dead End`; returns `is_live`. -/
def matchEndCondition (kw : String) (s : List Char) : Option Bool :=
  match stripLitCI kw.toList s with
  | none => none
  | some r =>
    match afterColon r with
    | none => none
    | some r1 =>
      match stripLitCI "Live End".toList r1 with
      | some _ => some true
      | none =>
        match stripLitCI "Dead End".toList r1 with
        | some _ => some false
        | none => none

/-- Matcher for `_TABLE_ROW = ^(\d+),\s*([\d\.]+),\s*([\d\.]+),\s*([\d\.]+)`;
returns the three numeric captures after the row index (the fourth group is
`h5_str`, the third `_h_raw` which the source discards unconverted). -/
def matchRow (s : List Char) : Option (List Char × List Char × List Char) :=
  let d0 := s.takeWhile Char.isDigit
  match d0, s.dropWhile Char.isDigit with
  | [], _ => none
  | _ :: _, ',' :: r1 =>
    let r1s := skipSpaces r1
    let g2 := r1s.takeWhile (fun c => c.isDigit || c = '.')
    match g2, r1s.dropWhile (fun c => c.isDigit || c = '.') with
    | [], _ => none
    | _ :: _, ',' :: r2 =>
      let r2s := skipSpaces r2
      let g3 := r2s.takeWhile (fun c => c.isDigit || c = '.')
      match g3, r2s.dropWhile (fun c => c.isDigit || c = '.') with
      | [], _ => none
      | _ :: _, ',' :: r3 =>
        let r3s := skipSpaces r3
        let g4 := r3s.takeWhile (fun c => c.isDigit || c = '.')
        if g4 = [] then none else some (g2, g3, g4)
      | _ :: _, _ => none
    | _ :: _, _ => none
  | _ :: _, _ => none

/-- Model of `TendonPoint` (`_models_py3.py`): distance in mm, height as an
integer number of millimetres. -/
structure TendonPoint where
  distance_mm : ℚ
  height_mm : ℤ
deriving DecidableEq, Repr

/-- Model of `TendonData` (`_models_py3.py`), with the dataclass defaults
`start_type = 1` and `end_type = 3`. -/
structure TendonData where
  id : Nat
  length_mm : ℚ
  start_xy_mm : ℚ × ℚ
  end_xy_mm : ℚ × ℚ
  tendon_type : Nat
  strand_type : ℚ
  strand_count : Nat
  start_type : Nat := 1
  end_type : Nat := 3
  points : List TendonPoint := []
deriving DecidableEq, Repr

/-- Parser state of the line loop in `parse_ptd_file`. -/
structure ParseState where
  tendons : List TendonData
  tendon : Option TendonData
  in_table : Bool
deriving DecidableEq, Repr

/-- Model of one iteration of the line loop of `parse_ptd_file`: the matchers
are tried in source order, `none` models an uncaught `ValueError` from a
numeric conversion. -/
def parseLine (st : ParseState) (rawLine : List Char) : Option ParseState :=
  let line := pyStrip rawLine
  if line = [] then some st
  else
    match matchTendonNo line with
    | some tid =>
      some { tendons := st.tendons ++ st.tendon.toList,
             tendon := some { id := tid, length_mm := 0, start_xy_mm := (0, 0),
                              end_xy_mm := (0, 0), tendon_type := 0,
                              strand_type := 0, strand_count := 0 },
             in_table := false }
    | none =>
      match st.tendon with
      | none => some st
      | some t =>
        match matchLength line with
        | some v => some { st with tendon := some { t with length_mm := ratMul v 1000 } }
        | none =>
        match matchCoords line with
        | some (g1, g2) =>
          match _coord_pair g1, _coord_pair g2 with
          | some sxy, some exy =>
            some { st with tendon := some { t with start_xy_mm := sxy, end_xy_mm := exy } }
          | _, _ => none
        | none =>
        match matchTendonType line with
        | some ty => some { st with tendon := some { t with tendon_type := ty } }
        | none =>
        match matchStrandType line with
        | some conv =>
          match conv with
          | some v => some { st with tendon := some { t with strand_type := v } }
          | none => none
        | none =>
        match matchStrandNo line with
        | some n => some { st with tendon := some { t with strand_count := n } }
        | none =>
        match matchEndCondition "Start" line with
        | some isLive =>
          let newStart := if isLive then (if t.tendon_type = 2 then 3 else 1) else 2
          some { st with tendon := some { t with start_type := newStart } }
        | none =>
        match matchEndCondition "End" line with
        | some isLive =>
          let newEnd := if isLive then (if t.tendon_type = 2 then 3 else 1) else 2
          some { st with tendon := some { t with end_type := newEnd } }
        | none =>
        if hasInfixCI "No.,".toList line then some { st with in_table := true }
        else if st.in_table then
          match matchRow line with
          | some (distStr, _hRaw, h5Str) =>
            match dottedToRat distStr, dottedToRat h5Str with
            | some d, some h =>
              let pt : TendonPoint := ⟨ratMul d 1000, pyTrunc (ratMul h 1000)⟩
              some { st with tendon := some { t with points := t.points ++ [pt] } }
            | _, _ => none
          | none => some { st with in_table := false }
        else some st

/-- Model of `parse_ptd_file`, taking the file's lines; `none` models an
uncaught conversion error aborting the parse. -/
def parse_ptd_file (fileLines : List String) : Option (List TendonData) := do
  let st ← fileLines.foldlM (fun st l => parseLine st l.toList)
    { tendons := [], tendon := none, in_table := false }
  pure (st.tendons ++ st.tendon.toList)


/-- Literal nine-line example block from the spec (section 8). -/
def exampleLines : List String :=
  ["Tendon No. 1",
   "Length :  12.345m",
   "End Point co-orinates, start: ( 100.0, 200.0 ) end: ( 300.0, 200.0 )",
   "Type    : 1",
   "Type of strands : 12.7",
   "Number of strands : 3",
   "No.,    L:5mm,    H:5mm,    Rs,    Rh",
   "1,      0.000,    0.000,    0.000,  0.000",
   "2,      3.500,    0.025,    0.000,  0.000"]

/-- Record the parser actually produces for `exampleLines` (note both profile
heights are `0`: the row matcher's fourth capture, the `Rs` column, is the one
converted to the height). -/
def exampleRecord : TendonData :=
  { id := 1, length_mm := 12345, start_xy_mm := (100000, 200000),
    end_xy_mm := (300000, 200000), tendon_type := 1,
    strand_type := mkRat 127 10, strand_count := 3, start_type := 1,
    end_type := 3, points := [⟨0, 0⟩, ⟨3500, 0⟩] }


/-- Input exhibiting a blank line inside the profile table followed by a
further numeric row. -/
def blankTableLines : List String :=
  ["Tendon No. 1",
   "No.,    L:5mm,    H:5mm,    Rs,    Rh",
   "1,      0.000,    0.000,    0.000,  0.000",
   "",
   "2,      3.500,    0.025,    0.000,  0.000"]

/-- Record the parser actually produces for `blankTableLines`: the row after
the blank line is still appended. -/
def blankTableRecord : TendonData :=
  { id := 1, length_mm := 0, start_xy_mm := (0, 0), end_xy_mm := (0, 0),
    tendon_type := 0, strand_type := 0, strand_count := 0,
    start_type := 1, end_type := 3, points := [⟨0, 0⟩, ⟨3500, 0⟩] }


/-- Record parsed from a lone header line: all numeric fields zero and the
dataclass defaults `start_type = 1`, `end_type = 3`. -/
def bareRecord : TendonData :=
  { id := 1, length_mm := 0, start_xy_mm := (0, 0), end_xy_mm := (0, 0),
    tendon_type := 0, strand_type := 0, strand_count := 0 }


/-- Header ids of an input, in order: one per line matching the
`Tendon No. <int>` pattern. -/
def headerIds (fileLines : List String) : List Nat :=
  fileLines.filterMap (fun l => matchTendonNo (pyStrip l.toList))

/-- The ids carried by a parser state: emitted records first, then the open
record, in emission order. -/
def stateIds (st : ParseState) : List Nat :=
  st.tendons.map (fun t => t.id) ++ (st.tendon.map (fun t => t.id)).toList


/-! ## Geometry kernel: convex hull (monotone chain), centroid, bounds
Source: `lib/utils/geometry.py`. The constructions are purely ordered-field
arithmetic, so they are stated generically; the alignment engine instantiates
them at `ℝ` and the hull theorems can be evaluated at `ℚ`. -/

section GenericGeometry

variable {α : Type*} [LinearOrderedField α]

/-- Lexicographic order on coordinate pairs (Python tuple comparison, used by
`sorted`). -/
def lexLe (p q : α × α) : Prop :=
  p.1 < q.1 ∨ (p.1 = q.1 ∧ p.2 ≤ q.2)

instance : DecidableRel (lexLe (α := α)) := fun p q =>
  inferInstanceAs (Decidable (_ ∨ _))

/-- Strict lexicographic order on coordinate pairs. -/
def lexLt (p q : α × α) : Prop :=
  p.1 < q.1 ∨ (p.1 = q.1 ∧ p.2 < q.2)

/-- Model of `_cross(o, a, b)`: the 2-D cross product `OA × OB`. -/
def _cross (o a b : α × α) : α :=
  (a.1 - o.1) * (b.2 - o.2) - (a.2 - o.2) * (b.1 - o.1)

/-- Model of `sorted(set(points))`: duplicates removed, then sorted
lexicographically. -/
def sortedPts (points : List (α × α)) : List (α × α) :=
  points.dedup.insertionSort lexLe

/-- One `lower.append(p)` of the monotone chain together with its popping
`while` loop; the stack is kept in reverse (head = most recently kept
vertex), matching `lower[-1]`, `lower[-2]`. -/
def chPush (p : α × α) : List (α × α) → List (α × α)
  | b :: a :: rest =>
    if _cross a b p ≤ 0 then chPush p (a :: rest) else p :: b :: a :: rest
  | l => p :: l

/-- Half-hull chain of a point sequence (stack form, head = last vertex). -/
def chain (pts : List (α × α)) : List (α × α) :=
  pts.foldl (fun st p => chPush p st) []

/-- Model of `convex_hull(points)`: sort-dedup, build lower and upper chains,
concatenate dropping each chain's last vertex. -/
def convex_hull (points : List (α × α)) : List (α × α) :=
  let pts := sortedPts points
  if pts.length ≤ 1 then pts
  else (chain pts).reverse.dropLast ++ (chain pts.reverse).reverse.dropLast

/-- Model of `centroid(points)`: coordinatewise arithmetic mean, `(0, 0)` for
an empty input. -/
def centroid (points : List (α × α)) : α × α :=
  if points = [] then (0, 0)
  else ((points.map Prod.fst).sum / (points.length : α),
        (points.map Prod.snd).sum / (points.length : α))

/-- Model of `poly_bounds(points)`: `(minX, maxX, minY, maxY)`, zeros for an
empty input. -/
def poly_bounds (points : List (α × α)) : α × α × α × α :=
  match points with
  | [] => (0, 0, 0, 0)
  | p :: ps =>
    (ps.foldl (fun m q => min m q.1) p.1,
     ps.foldl (fun m q => max m q.1) p.1,
     ps.foldl (fun m q => min m q.2) p.2,
     ps.foldl (fun m q => max m q.2) p.2)

/-- Model of `translate(points, dx, dy)` (the generator, consumed as a list). -/
def translate (points : List (α × α)) (dx dy : α) : List (α × α) :=
  points.map (fun q => (q.1 + dx, q.2 + dy))


/-- Adjacent (directed) vertex pairs of a list in traversal order. -/
def adjPairs (l : List (α × α)) : List ((α × α) × (α × α)) :=
  l.zip l.tail

/-- Doubled shoelace signed area over the cyclic edge list. -/
def signedArea2 (l : List (α × α)) : α :=
  ((cyclicPairs l).map (fun e => e.1.1 * e.2.2 - e.1.2 * e.2.1)).sum

/-- Strict convexity (left turns) of a chain stack (head = latest vertex). -/
def ChainConvex : List (α × α) → Prop
  | z :: y :: x :: rest => 0 < _cross x y z ∧ ChainConvex (y :: x :: rest)
  | _ => True

/-- Stack is strictly lex-decreasing from the head down. -/
def StackSorted (S : List (α × α)) : Prop :=
  List.Chain' (fun a b => lexLt b a) S

/-- All stack edges (directed upward, from the element below to the element
above) see `q` weakly on their left. -/
def EdgesLeftS (q : α × α) (S : List (α × α)) : Prop :=
  ∀ e ∈ S.tail.zip S, 0 ≤ _cross e.1 e.2 q

/-- Adjacency pairs of `l` followed by a final wrap edge to `z`. -/
def pathPairs {γ : Type*} (l : List γ) (z : γ) : List (γ × γ) :=
  l.zip (l.tail ++ [z])

/-- Point negation; conjugating the chain fold by it turns the reversed
upper pass into a forward pass over a lex-sorted list. -/
def negP (q : α × α) : α × α := (-q.1, -q.2)

instance : IsTotal (α × α) (lexLe (α := α)) := by
  constructor
  intro p q
  unfold lexLe
  rcases lt_trichotomy p.1 q.1 with h | h | h
  · exact Or.inl (Or.inl h)
  · rcases le_total p.2 q.2 with h2 | h2
    · exact Or.inl (Or.inr ⟨h, h2⟩)
    · exact Or.inr (Or.inr ⟨h.symm, h2⟩)
  · exact Or.inr (Or.inl h)

instance : IsTrans (α × α) (lexLe (α := α)) := by
  constructor
  intro p q r h1 h2
  unfold lexLe at h1 h2 ⊢
  rcases h1 with h1 | ⟨e1, le1⟩ <;> rcases h2 with h2 | ⟨e2, le2⟩
  · exact Or.inl (lt_trans h1 h2)
  · exact Or.inl (by rw [← e2]; exact h1)
  · exact Or.inl (by rw [e1]; exact h2)
  · exact Or.inr ⟨e1.trans e2, le_trans le1 le2⟩

end GenericGeometry

/-- Model of `rotate(points, angle_rad, origin)` (the generator, consumed as
a list). -/
noncomputable def rotate (points : List (ℝ × ℝ)) (angle_rad : ℝ)
    (origin : ℝ × ℝ) : List (ℝ × ℝ) :=
  points.map (fun q =>
    let tx := q.1 - origin.1
    let ty := q.2 - origin.2
    (tx * Real.cos angle_rad - ty * Real.sin angle_rad + origin.1,
     tx * Real.sin angle_rad + ty * Real.cos angle_rad + origin.2))


/-! ## Grouping engine
Source: `lib/revit_backend/grouping.py`. Tendons carry the duck-typed surface
the module relies on: `start`, `end`, `length` (possibly absent, hence
`Option`) and `tendon_points`. Coordinates are Revit `XYZ` vectors. -/

/-- Revit `DB.XYZ` 3-D vector. -/
structure XYZ where
  X : ℝ
  Y : ℝ
  Z : ℝ

/-- Vector subtraction `v1 - v2` (operator the code applies to `XYZ`). -/
noncomputable def xyzSub (a b : XYZ) : XYZ := ⟨a.X - b.X, a.Y - b.Y, a.Z - b.Z⟩

/-- Magnitude `(X**2 + Y**2 + Z**2) ** 0.5`. -/
noncomputable def xyzMag (v : XYZ) : ℝ :=
  Real.sqrt (v.X ^ 2 + v.Y ^ 2 + v.Z ^ 2)

/-- Dot product `v1.DotProduct(v2)`. -/
noncomputable def xyzDot (a b : XYZ) : ℝ := a.X * b.X + a.Y * b.Y + a.Z * b.Z

/-- Model of `_direction(vec)`: the normalised vector, or the input when its
magnitude is zero. -/
noncomputable def _direction (v : XYZ) : XYZ :=
  if xyzMag v = 0 then v
  else ⟨v.X / xyzMag v, v.Y / xyzMag v, v.Z / xyzMag v⟩

/-- Model of `_angle_between(v1, v2)`: unsigned angle in degrees between the
normalised vectors, the dot product clamped to `[-1, 1]`. -/
noncomputable def _angle_between (v1 v2 : XYZ) : ℝ :=
  Real.arccos (max (-1) (min 1 (xyzDot (_direction v1) (_direction v2)))) *
    (180 / Real.pi)

/-- Model of `_profiles_match(p1, p2, dist_tol, height_tol)`. -/
def _profiles_match (p1 p2 : List (ℝ × ℝ)) (dist_tol height_tol : ℝ) : Prop :=
  p1.length = p2.length ∧
  ∀ pr ∈ p1.zip p2, |pr.1.1 - pr.2.1| ≤ dist_tol ∧ |pr.1.2 - pr.2.2| ≤ height_tol

/-- Duck-typed tendon surface consumed by `group_tendons` (`end` is a Lean
keyword, so the end point is named `endPt`). -/
structure GTendon where
  start : XYZ
  endPt : XYZ
  length : Option ℝ
  tendon_points : List (ℝ × ℝ)

/-- Effective representative length: the `length` attribute unless it is
missing or zero, in which case the magnitude of `start - end`. -/
noncomputable def baseLenOf (t : GTendon) : ℝ :=
  match t.length with
  | none => xyzMag (xyzSub t.start t.endPt)
  | some L => if L = 0 then xyzMag (xyzSub t.start t.endPt) else L

/-- Perpendicular-offset quantity the grouping predicate compares against
`spacing_tol`: `abs(diff.X * dir.Y - diff.Y * dir.X) / base_len` where
`diff = other.start - base.start` and `dir = base.start - base.end`. -/
noncomputable def offsetQuantity (base other : GTendon) : ℝ :=
  let base_dir := xyzSub base.start base.endPt
  let diff := xyzSub other.start base.start
  |diff.X * base_dir.Y - diff.Y * base_dir.X| / baseLenOf base

/-- Longitudinal-shift quantity the grouping predicate compares against
`shift_tol`: `abs(diff.X * dir.X + diff.Y * dir.Y) / base_len`. -/
noncomputable def shiftQuantity (base other : GTendon) : ℝ :=
  let base_dir := xyzSub base.start base.endPt
  let diff := xyzSub other.start base.start
  |diff.X * base_dir.X + diff.Y * base_dir.Y| / baseLenOf base

/-- The four pass conditions of the matching loop of `group_tendons` (each
`continue` negated). -/
noncomputable def tendonMatches (base : GTendon)
    (angle_tol length_tol dist_tol height_tol spacing_tol shift_tol : ℝ)
    (other : GTendon) : Prop :=
  let base_dir := xyzSub base.start base.endPt
  let ang0 := _angle_between base_dir (xyzSub other.start other.endPt)
  let ang := if ang0 > 90 then 180 - ang0 else ang0
  ang ≤ angle_tol ∧
  offsetQuantity base other ≤ spacing_tol ∧
  shiftQuantity base other ≤ shift_tol ∧
  |baseLenOf base - baseLenOf other| ≤ length_tol ∧
  _profiles_match base.tendon_points other.tendon_points dist_tol height_tol

open Classical in
/-- The `while ungrouped` loop of `group_tendons`: pop the first tendon as
representative, skip it entirely when its effective length is zero, else
split the remainder by the matching predicate. -/
noncomputable def groupLoop
    (angle_tol length_tol dist_tol height_tol spacing_tol shift_tol : ℝ) :
    List GTendon → List (List GTendon)
  | [] => []
  | base :: rest =>
    if baseLenOf base = 0 then
      groupLoop angle_tol length_tol dist_tol height_tol spacing_tol shift_tol rest
    else
      let matchB := fun o => decide
        (tendonMatches base angle_tol length_tol dist_tol height_tol
          spacing_tol shift_tol o)
      (base :: rest.filter matchB) ::
        groupLoop angle_tol length_tol dist_tol height_tol spacing_tol
          shift_tol (rest.filter (fun o => !matchB o))
termination_by l => l.length
decreasing_by
  · simp
  · simp only [List.length_cons]
    exact Nat.lt_succ_of_le (List.length_filter_le _ _)

/-- Model of `group_tendons(tendons, ...)` with the source's keyword
parameters and defaults. -/
noncomputable def group_tendons (tendons : List GTendon)
    (angle_tol : ℝ := 5.0) (length_tol : ℝ := 0.5) (dist_tol : ℝ := 0.5)
    (height_tol : ℝ := 5) (spacing_tol : ℝ := 5.0) (shift_tol : ℝ := 2.0) :
    List (List GTendon) :=
  groupLoop angle_tol length_tol dist_tol height_tol spacing_tol shift_tol
    tendons


/-- Degenerate tendon: stored length zero and coincident endpoints. -/
noncomputable def degenerateTendon : GTendon :=
  { start := ⟨0, 0, 0⟩, endPt := ⟨0, 0, 0⟩, length := some 0,
    tendon_points := [] }


/-- Unit-length tendon used as a witness input. -/
noncomputable def unitTendon : GTendon :=
  { start := ⟨0, 0, 0⟩, endPt := ⟨1, 0, 0⟩, length := some 1,
    tendon_points := [] }


/-- Modelled from the spec: the perpendicular (point-to-line) distance in
plan from point `p` to the axis through `a` and `b`. -/
noncomputable def perpDist (p a b : XYZ) : ℝ :=
  |(b.X - a.X) * (p.Y - a.Y) - (b.Y - a.Y) * (p.X - a.X)| /
    Real.sqrt ((b.X - a.X) ^ 2 + (b.Y - a.Y) ^ 2)

/-- Modelled from the spec: the absolute longitudinal projection in plan of
`p - a` onto the axis through `a` and `b`. -/
noncomputable def longProj (p a b : XYZ) : ℝ :=
  |(p.X - a.X) * (b.X - a.X) + (p.Y - a.Y) * (b.Y - a.Y)| /
    Real.sqrt ((b.X - a.X) ^ 2 + (b.Y - a.Y) ^ 2)

/-- Planar (XY) magnitude of a vector. -/
noncomputable def planarMag (v : XYZ) : ℝ := Real.sqrt (v.X ^ 2 + v.Y ^ 2)


/-- Representative with a stored length (4) different from its planar axis
length (2). -/
noncomputable def cBase : GTendon :=
  { start := ⟨0, 0, 0⟩, endPt := ⟨2, 0, 0⟩, length := some 4,
    tendon_points := [] }

/-- Candidate starting one unit off the representative's axis. -/
noncomputable def cOther : GTendon :=
  { start := ⟨0, 1, 0⟩, endPt := ⟨2, 1, 0⟩, length := some 4,
    tendon_points := [] }


/-- Flat unit-axis representative whose effective length equals its planar
axis length. -/
noncomputable def wBase : GTendon :=
  { start := ⟨0, 0, 0⟩, endPt := ⟨1, 0, 0⟩, length := none,
    tendon_points := [] }


/-! ## Alignment engine
Source: `lib/revit_backend/alignment.py`, `find_best_transform`. The Revit
document/view pair only serves to produce the combined floor hull
(`_collect_combined_floor_hull`), so the model takes that hull (the target
outline) as an input, as the spec's alignment contract does. `_dhd` is
`directed_hausdorff_outside`. -/

/-- Model of `math.radians`. -/
noncomputable def radians (deg : ℝ) : ℝ := deg * (Real.pi / 180)

/-- Model of the inner `_evaluate(angle_rad)` of `find_best_transform`:
returns the best `(err, dx, dy)` over the five translation strategies at one
rotation angle. Strategies D and E reuse the Python loop variable `dy`,
whose value after strategy C's loops is the offset of the last slab vertex
against the last rotated vertex (the value from strategy B when either list
is empty). -/
noncomputable def _evaluate (slab_hull tendon_hull : List (ℝ × ℝ))
    (tend_cent : ℝ × ℝ) (angle_rad : ℝ) : ℝ × ℝ × ℝ :=
  let rot_pts := rotate tendon_hull angle_rad tend_cent
  let floor_cent := centroid slab_hull
  let dxA := floor_cent.1 - tend_cent.1
  let dyA := floor_cent.2 - tend_cent.2
  let errA := directed_hausdorff_outside (translate rot_pts dxA dyA) slab_hull
  let bl0 := (errA, dxA, dyA)
  let tb := poly_bounds rot_pts
  let sb := poly_bounds slab_hull
  let dxB := sb.1 - tb.1
  let dyB := sb.2.2.1 - tb.2.2.1
  let errB := directed_hausdorff_outside (translate rot_pts dxB dyB) slab_hull
  let bl1 := if errB < bl0.1 then (errB, dxB, dyB) else bl0
  let bl2 := slab_hull.foldl (fun acc s => rot_pts.foldl (fun acc2 t =>
      let dx := s.1 - t.1
      let dy := s.2 - t.2
      let err := directed_hausdorff_outside (translate rot_pts dx dy) slab_hull
      if err < acc2.1 then (err, dx, dy) else acc2) acc) bl1
  let dyD := match slab_hull.getLast?, rot_pts.getLast? with
    | some s, some t => s.2 - t.2
    | _, _ => dyB
  let dx_cx := (centroid slab_hull).1 - tend_cent.1
  let err_cx := directed_hausdorff_outside (translate rot_pts dx_cx dyD) slab_hull
  let bl3 := if err_cx < bl2.1 then (err_cx, dx_cx, dyD) else bl2
  let dx_left := sb.1 - tb.1
  let err_left := directed_hausdorff_outside (translate rot_pts dx_left dyD) slab_hull
  if err_left < bl3.1 then (err_left, dx_left, dyD) else bl3

/-- Folding `_evaluate` over a list of angles, keeping the strictly best
`(err, angle, dx, dy)` (`best[0]` in the source, `none` when unset). -/
noncomputable def runBest (slab_hull tendon_hull : List (ℝ × ℝ))
    (tend_cent : ℝ × ℝ) (angles : List ℝ) (best0 : Option (ℝ × ℝ × ℝ × ℝ)) :
    Option (ℝ × ℝ × ℝ × ℝ) :=
  angles.foldl (fun best angle_rad =>
    let e := _evaluate slab_hull tendon_hull tend_cent angle_rad
    match best with
    | none => some (e.1, angle_rad, e.2.1, e.2.2)
    | some b => if e.1 < b.1 then some (e.1, angle_rad, e.2.1, e.2.2)
                else some b) best0

/-- Angles visited by `while angle < 2*pi: ...; angle += step_rad` for a
positive step (an empty sweep models the non-terminating non-positive case,
which the acceptance theorem excludes by hypothesis). -/
noncomputable def sweepAngles (angle_step_deg : ℝ) : List ℝ :=
  List.map (fun (k : ℕ) => (k : ℝ) * radians angle_step_deg)
    (List.range ⌈2 * Real.pi / radians angle_step_deg⌉₊)

/-- Post-processing snap of the left (min-X) edges: returns the updated
`(dx, err)`, accepting the snap when it does not worsen the error by more
than `tolerance_ft`. -/
noncomputable def snapAdjust (slab_hull tendon_hull : List (ℝ × ℝ))
    (tend_cent : ℝ × ℝ) (angle_rad dx dy err tolerance_ft : ℝ) : ℝ × ℝ :=
  let cos_a := Real.cos angle_rad
  let sin_a := Real.sin angle_rad
  let trans_tendon := tendon_hull.map (fun q =>
    ((q.1 - tend_cent.1) * cos_a - (q.2 - tend_cent.2) * sin_a +
       tend_cent.1 + dx,
     (q.1 - tend_cent.1) * sin_a + (q.2 - tend_cent.2) * cos_a +
       tend_cent.2 + dy))
  let tb := poly_bounds trans_tendon
  let sb := poly_bounds slab_hull
  let snap_dx := sb.1 - tb.1
  if |snap_dx| > 1 / 1000000 then
    let shifted := trans_tendon.map (fun q => (q.1 + snap_dx, q.2))
    let snap_err := directed_hausdorff_outside shifted slab_hull
    if snap_err ≤ err + tolerance_ft then (dx + snap_dx, snap_err)
    else (dx, err)
  else (dx, err)

/-- Search core of `find_best_transform`: coarse sweep, refinement around the
best angle, then the snap post-process — everything up to (but excluding) the
final `max_error_ft` acceptance test. Returns `(angle_rad, dx, dy, err)`. -/
noncomputable def fbtCore (slab_hull tendon_hull : List (ℝ × ℝ))
    (angle_step_deg refine_step_deg tolerance_ft : ℝ) (allow_rotation : Bool) :
    Option (ℝ × ℝ × ℝ × ℝ) :=
  let tend_cent := centroid tendon_hull
  let best0 := if allow_rotation then
      runBest slab_hull tendon_hull tend_cent (sweepAngles angle_step_deg) none
    else runBest slab_hull tendon_hull tend_cent [0] none
  match best0 with
  | none => none
  | some bt =>
    let best1 := if allow_rotation then
        let refine_rad := radians refine_step_deg
        runBest slab_hull tendon_hull tend_cent
          [bt.2.1 - refine_rad, bt.2.1 + refine_rad,
           bt.2.1 - refine_rad / 2, bt.2.1 + refine_rad / 2] (some bt)
      else some bt
    match best1 with
    | none => none
    | some b =>
      let s := snapAdjust slab_hull tendon_hull tend_cent b.2.1 b.2.2.1
        b.2.2.2 b.1 tolerance_ft
      some (b.2.1, s.1, b.2.2.2, s.2)

/-- Model of `find_best_transform`: `None` when there is no slab hull or no
tendon hull, else the search core followed by the acceptance test
`err > max_error_ft → None`. -/
noncomputable def find_best_transform (slab_hull tendon_pts : List (ℝ × ℝ))
    (angle_step_deg refine_step_deg max_error_ft tolerance_ft : ℝ)
    (allow_rotation : Bool) : Option (ℝ × ℝ × ℝ × ℝ) :=
  if slab_hull = [] then none
  else
    let tendon_hull := convex_hull tendon_pts
    if tendon_hull = [] then none
    else
      match fbtCore slab_hull tendon_hull angle_step_deg refine_step_deg
        tolerance_ft allow_rotation with
      | none => none
      | some r => if r.2.2.2 > max_error_ft then none else some r


/-! Helper lemmas about running folds of `min` / `max`. -/

theorem foldl_min_le_init {α : Type*} (f : α → ℝ) (l : List α) (c : ℝ) :
    l.foldl (fun m x => min m (f x)) c ≤ c := by
  induction l generalizing c with
  | nil => simp
  | cons x xs ih =>
    simpa using (ih (min c (f x))).trans (min_le_left _ _)

theorem foldl_min_le_mem {α : Type*} (f : α → ℝ) (l : List α) (c : ℝ) {x : α}
    (hx : x ∈ l) : l.foldl (fun m x => min m (f x)) c ≤ f x := by
  induction l generalizing c with
  | nil => cases hx
  | cons y ys ih =>
    rcases List.mem_cons.mp hx with h | h
    · subst h
      exact (foldl_min_le_init f ys _).trans (min_le_right _ _)
    · simp only [List.foldl_cons]
      exact ih _ h

theorem init_le_foldl_max {α : Type*} (f : α → ℝ) (l : List α) (c : ℝ) :
    c ≤ l.foldl (fun m x => max m (f x)) c := by
  induction l generalizing c with
  | nil => simp
  | cons x xs ih =>
    simpa using (le_max_left c (f x)).trans (ih (max c (f x)))

theorem foldl_max_le {α : Type*} (f : α → ℝ) (l : List α) (c d : ℝ)
    (hc : c ≤ d) (h : ∀ x ∈ l, f x ≤ d) :
    l.foldl (fun m x => max m (f x)) c ≤ d := by
  induction l generalizing c with
  | nil => simpa using hc
  | cons x xs ih =>
    simp only [List.foldl_cons]
    exact ih (max c (f x)) (max_le hc (h x (List.mem_cons_self x xs)))
      (fun y hy => h y (List.mem_cons_of_mem x hy))

theorem mem_le_foldl_max {α : Type*} (f : α → ℝ) (l : List α) (c : ℝ) {x : α}
    (hx : x ∈ l) : f x ≤ l.foldl (fun m x => max m (f x)) c := by
  induction l generalizing c with
  | nil => cases hx
  | cons y ys ih =>
    rcases List.mem_cons.mp hx with h | h
    · subst h
      exact (le_max_right c (f x)).trans (init_le_foldl_max f ys _)
    · exact ih _ h

theorem le_foldl_min {α : Type*} (f : α → ℝ) (l : List α) (c d : ℝ)
    (hc : d ≤ c) (h : ∀ x ∈ l, d ≤ f x) :
    d ≤ l.foldl (fun m x => min m (f x)) c := by
  induction l generalizing c with
  | nil => simpa using hc
  | cons x xs ih =>
    simp only [List.foldl_cons]
    exact ih (min c (f x)) (le_min hc (h x (List.mem_cons_self x xs)))
      (fun y hy => h y (List.mem_cons_of_mem x hy))

theorem _point_distance_nonneg (pa pb : ℝ × ℝ) : 0 ≤ _point_distance pa pb :=
  Real.sqrt_nonneg _

theorem _point_distance_self (pa : ℝ × ℝ) : _point_distance pa pa = 0 := by
  simp [_point_distance]

theorem minDist_nonneg (pa : ℝ × ℝ) (b : List (ℝ × ℝ)) : 0 ≤ minDist pa b := by
  cases b with
  | nil => simp [minDist]
  | cons q qs =>
    exact le_foldl_min _ qs _ 0 (_point_distance_nonneg pa q)
      (fun y _ => _point_distance_nonneg pa y)

theorem minDist_le_mem (pa : ℝ × ℝ) {b : List (ℝ × ℝ)} {q : ℝ × ℝ} (hq : q ∈ b) :
    minDist pa b ≤ _point_distance pa q := by
  cases b with
  | nil => cases hq
  | cons r rs =>
    rcases List.mem_cons.mp hq with h | h
    · subst h
      exact foldl_min_le_init _ rs _
    · exact foldl_min_le_mem _ rs _ h

theorem directed_hausdorff_nonneg (a b : List (ℝ × ℝ)) :
    0 ≤ _directed_hausdorff a b := by
  unfold _directed_hausdorff
  split
  · exact le_refl 0
  · exact init_le_foldl_max _ a 0

theorem directed_hausdorff_self (a : List (ℝ × ℝ)) : _directed_hausdorff a a = 0 := by
  unfold _directed_hausdorff
  split
  · rfl
  · refine le_antisymm (foldl_max_le _ a 0 0 le_rfl ?_) (init_le_foldl_max _ a 0)
    intro pa hpa
    exact le_of_le_of_eq (minDist_le_mem pa hpa) (_point_distance_self pa)

/-- C8: `hausdorff_distance(a, b) == hausdorff_distance(b, a)` for all point
lists (in particular all finite non-empty ones), and the directed Hausdorff
distance from any list to itself is `0`. -/
theorem C8_hausdorff_symm_and_self_zero :
    (∀ a b : List (ℝ × ℝ), hausdorff_distance a b = hausdorff_distance b a) ∧
    (∀ a : List (ℝ × ℝ), _directed_hausdorff a a = 0) :=
  ⟨fun a b => max_comm _ _, directed_hausdorff_self⟩

/-- C10: restricting `a` to the points outside the hull never increases the
directed Hausdorff distance, and the outside-filtered distance is `0` whenever
every point of `a` is classified as inside the hull. -/
theorem C10_directed_hausdorff_outside_le (a hull : List (ℝ × ℝ)) :
    directed_hausdorff_outside a hull ≤ _directed_hausdorff a hull ∧
    ((∀ p ∈ a, pt_in_convex p hull = true) →
      directed_hausdorff_outside a hull = 0) := by
  constructor
  · unfold directed_hausdorff_outside
    split
    · exact directed_hausdorff_nonneg a hull
    · rename_i hne
      push_neg at hne
      dsimp only
      split
      · exact directed_hausdorff_nonneg a hull
      · rename_i hout
        unfold _directed_hausdorff
        rw [if_neg (by simp [hout, hne.2]), if_neg (by simp [hne.1, hne.2])]
        refine foldl_max_le (fun pa => minDist pa hull) _ 0 _
          (init_le_foldl_max (fun pa => minDist pa hull) a 0) ?_
        intro x hx
        exact mem_le_foldl_max (fun pa => minDist pa hull) a 0
          (List.mem_of_mem_filter hx)
  · intro h
    unfold directed_hausdorff_outside
    split
    · rfl
    · dsimp only
      rw [if_pos]
      simp only [List.filter_eq_nil_iff]
      intro p hp
      simp [h p hp]

/-- Witness for C10 at the concrete input `a = []`, `hull = []`. -/
theorem C10_witness :
    directed_hausdorff_outside [] [] ≤ _directed_hausdorff [] [] ∧
    directed_hausdorff_outside [] [] = 0 := by
  refine ⟨(C10_directed_hausdorff_outside_le [] []).1, ?_⟩
  exact (C10_directed_hausdorff_outside_le [] []).2 (by simp)


/-! ### Parser claims -/


theorem parse_exampleLines : parse_ptd_file exampleLines = some [exampleRecord] := by
  decide

/-- C2 counterexample: parsing the nine-line example block does not yield a
record whose second profile point has height `25` mm; the code converts the
`Rs` column (the fourth regex capture), giving height `0`. -/
theorem C2_counterexample :
    ¬ ∃ t : TendonData, parse_ptd_file exampleLines = some [t] ∧
      t.points = [⟨0, 0⟩, ⟨3500, 25⟩] := by
  rintro ⟨t, ht, hp⟩
  rw [parse_exampleLines] at ht
  obtain rfl : exampleRecord = t := by simpa using ht
  simp [exampleRecord] at hp

/-- C2 (amended): parsing the literal nine-line example block yields exactly
one record with id 1, length 12345 mm, start (100000, 200000) mm, end
(300000, 200000) mm, tendon type 1, strand type 12.7, strand count 3, and two
profile points (0 mm, 0 mm) and (3500 mm, 0 mm); the parsed heights are `0`
because the code reads the fourth captured column, not the `H:5mm` column. -/
theorem C2_amended_parse_example :
    parse_ptd_file exampleLines =
      some [{ id := 1, length_mm := 12345, start_xy_mm := (100000, 200000),
              end_xy_mm := (300000, 200000), tendon_type := 1,
              strand_type := (127 : ℚ) / 10, strand_count := 3,
              start_type := 1, end_type := 3,
              points := [⟨0, 0⟩, ⟨3500, 0⟩] }] := by
  rw [parse_exampleLines]
  have h : mkRat 127 10 = (127 : ℚ) / 10 := by rw [Rat.mkRat_eq_div]; norm_num
  simp [exampleRecord, h]


/-- C3 counterexample: on `blankTableLines` the claim predicts that the
numeric row after the blank line is not appended; in fact the parsed record
contains that row's profile point (3500 mm, 0). -/
theorem C3_counterexample :
    ¬ ∀ t : TendonData, parse_ptd_file blankTableLines = some [t] →
        (⟨3500, 0⟩ : TendonPoint) ∉ t.points := by
  intro hclaim
  refine hclaim blankTableRecord ?_ ?_
  · decide
  · decide


/-- C4: a record block without explicit end-condition markers keeps
`end_type = 3`, while an explicit `Dead End` marker writes `end_type = 2`:
under the parser's own encoding the default end kind is not the dead value,
contradicting the spec's default of `{stressed, dead}`. -/
theorem C4_default_end_kind_mismatch :
    (∃ t : TendonData, parse_ptd_file ["Tendon No. 1"] = some [t] ∧
        t.start_type = 1 ∧ t.end_type = 3) ∧
    (∃ t : TendonData,
        parse_ptd_file ["Tendon No. 1", "End : Dead End"] = some [t] ∧
        t.end_type = 2) ∧
    bareRecord.end_type ≠ 2 := by
  refine ⟨⟨bareRecord, by decide, rfl, rfl⟩,
    ⟨{ bareRecord with end_type := 2 }, by decide, rfl⟩, by decide⟩


/-- Stepping the parser on one line extends the id trace exactly by that
line's header id, if any. -/
theorem stateIds_parseLine (st st' : ParseState) (l : List Char)
    (h : parseLine st l = some st') :
    stateIds st' = stateIds st ++ (matchTendonNo (pyStrip l)).toList := by
  simp only [parseLine] at h
  by_cases hblank : pyStrip l = []
  · rw [if_pos hblank] at h
    cases h
    simp [hblank, matchTendonNo, stripLit]
  · rw [if_neg hblank] at h
    split at h
    · rename_i tid hhdr
      cases h
      simp only [hhdr, stateIds, Option.toList_some, List.map_append]
      cases st.tendon <;> simp
    · rename_i hhdr
      rw [hhdr]
      split at h
      · cases h; simp
      · rename_i t htd
        have base : ∀ u : TendonData, u.id = t.id →
            stateIds { tendons := st.tendons, tendon := some u,
                       in_table := st.in_table } = stateIds st ++ [] := by
          intro u hu
          simp [stateIds, htd, hu]
        split at h
        · cases h; exact base _ rfl
        · split at h
          · split at h
            · cases h; exact base _ rfl
            · exact absurd h (by simp)
          · split at h
            · cases h; exact base _ rfl
            · split at h
              · split at h
                · cases h; exact base _ rfl
                · exact absurd h (by simp)
              · split at h
                · cases h; exact base _ rfl
                · split at h
                  · cases h; exact base _ rfl
                  · split at h
                    · cases h; exact base _ rfl
                    · split at h
                      · cases h; simp [stateIds]
                      · split at h
                        · split at h
                          · split at h
                            · cases h; exact base _ rfl
                            · exact absurd h (by simp)
                          · cases h; simp [stateIds]
                        · cases h; simp [stateIds]

/-- Folding the parser over a list of lines appends that list's header ids to
the id trace. -/
theorem stateIds_foldlM (fileLines : List String) :
    ∀ st st' : ParseState,
      fileLines.foldlM (fun st l => parseLine st l.toList) st = some st' →
      stateIds st' = stateIds st ++ headerIds fileLines := by
  induction fileLines with
  | nil => intro st st' h; cases h; simp [headerIds]
  | cons l ls ih =>
    intro st st' h
    simp only [List.foldlM_cons] at h
    cases hstep : parseLine st l.toList with
    | none => rw [hstep] at h; cases h
    | some st1 =>
      rw [hstep] at h
      simp only [Option.bind_eq_bind, Option.some_bind] at h
      rw [ih st1 st' h, stateIds_parseLine st st1 l.toList hstep,
        List.append_assoc]
      simp only [headerIds, List.filterMap_cons]
      cases matchTendonNo (pyStrip l.toList) <;> simp

/-- Lines in which no header occurs do not change the initial (no open
record) state. -/
theorem parseLine_pre_header (l : List Char) (tendons : List TendonData)
    (tbl : Bool) (hl : matchTendonNo (pyStrip l) = none) :
    parseLine { tendons := tendons, tendon := none, in_table := tbl } l =
      some { tendons := tendons, tendon := none, in_table := tbl } := by
  simp only [parseLine]
  by_cases hblank : pyStrip l = []
  · rw [if_pos hblank]
  · rw [if_neg hblank, hl]

/-- C9 (amended): whenever the parse succeeds, the parser emits exactly one
record per `Tendon No. <int>` header line, in header order, carrying that
header's integer as the id (the record open at end of input included); and a
prefix of lines containing no header line leaves the parse unchanged. The
amendment restricts the claim to inputs on which no numeric conversion fails:
a malformed numeric literal aborts the whole parse
(`C9_counterexample`). -/
theorem C9_parser_emits_one_record_per_header :
    (∀ (fileLines : List String) (ts : List TendonData),
        parse_ptd_file fileLines = some ts →
        ts.map (fun t => t.id) = headerIds fileLines) ∧
    (∀ pre rest : List String,
        (∀ l ∈ pre, matchTendonNo (pyStrip l.toList) = none) →
        parse_ptd_file (pre ++ rest) = parse_ptd_file rest) := by
  constructor
  · intro fileLines ts h
    unfold parse_ptd_file at h
    cases hfold : fileLines.foldlM (fun st l => parseLine st l.toList)
      { tendons := [], tendon := none, in_table := false } with
    | none => rw [hfold] at h; cases h
    | some stF =>
      rw [hfold] at h
      simp only [Option.bind_eq_bind, Option.some_bind, Option.pure_def,
        Option.some.injEq] at h
      subst h
      have := stateIds_foldlM fileLines _ _ hfold
      rw [List.map_append]
      cases htd : stF.tendon <;> simp_all [stateIds]
  · intro pre rest hpre
    unfold parse_ptd_file
    rw [List.foldlM_append]
    have hfix : pre.foldlM (fun st l => parseLine st l.toList)
        { tendons := [], tendon := none, in_table := false } =
        some { tendons := [], tendon := none, in_table := false } := by
      induction pre with
      | nil => rfl
      | cons l ls ihp =>
        simp only [List.foldlM_cons]
        rw [parseLine_pre_header l.toList [] false
          (hpre l (List.mem_cons_self l ls))]
        simp only [Option.bind_eq_bind, Option.some_bind]
        exact ihp (fun x hx => hpre x (List.mem_cons_of_mem l hx))
    rw [hfix]
    rfl

/-- C9 counterexample: an input with one header line but a malformed numeric
literal (`float("1.2.3")` raises `ValueError`) makes the whole parse fail, so
no record at all is emitted for that header. -/
theorem C9_counterexample :
    parse_ptd_file ["Tendon No. 1", "Type of strands : 1.2.3"] = none ∧
    headerIds ["Tendon No. 1", "Type of strands : 1.2.3"] = [1] := by
  constructor <;> decide

/-- Witness for C9 at concrete inputs: a single-header file yields the single
record with that header's id, and a headerless prefix is a no-op. -/
theorem C9_witness :
    ([{ bareRecord with id := 7 }].map (fun t => t.id) =
      headerIds ["Tendon No. 7"]) ∧
    parse_ptd_file ["hello world", "", "Tendon No. 7"] =
      parse_ptd_file ["Tendon No. 7"] := by
  constructor
  · exact C9_parser_emits_one_record_per_header.1 ["Tendon No. 7"]
      [{ bareRecord with id := 7 }] (by decide)
  · exact C9_parser_emits_one_record_per_header.2 ["hello world", ""]
      ["Tendon No. 7"] (by decide)


/-- Lowercasing does not change a digit character. -/
theorem toLower_of_digit {c : Char} (hc : c.isDigit = true) : c.toLower = c := by
  simp only [Char.isDigit, Bool.and_eq_true, decide_eq_true_eq] at hc
  have h9 : c.toNat ≤ 57 := hc.2
  unfold Char.toLower
  rw [if_neg]
  rintro ⟨ha, _⟩
  omega

/-- A case-sensitive literal match starting with a non-digit fails on a line
whose first character is a digit. -/
theorem stripLit_none_of_digit {p : Char} {ps : List Char} {c : Char}
    {cs : List Char} (hc : c.isDigit = true) (hp : p.isDigit = false) :
    stripLit (p :: ps) (c :: cs) = none := by
  simp only [stripLit, ite_eq_right_iff]
  intro he
  rw [he, hp] at hc
  cases hc

/-- A case-insensitive literal match starting with a non-digit (even after
lowercasing) fails on a line whose first character is a digit. -/
theorem stripLitCI_none_of_digit {p : Char} {ps : List Char} {c : Char}
    {cs : List Char} (hc : c.isDigit = true) (hp : p.toLower.isDigit = false) :
    stripLitCI (p :: ps) (c :: cs) = none := by
  simp only [stripLitCI, ite_eq_right_iff]
  intro he
  rw [toLower_of_digit hc] at he
  rw [he, hp] at hc
  cases hc

/-- Every header matcher fails on a line beginning with a digit. -/
theorem headerMatchersFail (c : Char) (cs : List Char) (hc : c.isDigit = true) :
    matchTendonNo (c :: cs) = none ∧ matchLength (c :: cs) = none ∧
    matchCoords (c :: cs) = none ∧ matchTendonType (c :: cs) = none ∧
    matchStrandType (c :: cs) = none ∧ matchStrandNo (c :: cs) = none ∧
    matchEndCondition "Start" (c :: cs) = none ∧
    matchEndCondition "End" (c :: cs) = none := by
  have hTe : stripLit ['T', 'e', 'n', 'd', 'o', 'n', ' ', 'N', 'o', '.'] (c :: cs) = none :=
    stripLit_none_of_digit hc (by decide)
  have hLe : stripLit ['L', 'e', 'n', 'g', 't', 'h'] (c :: cs) = none :=
    stripLit_none_of_digit hc (by decide)
  have hTy : stripLit ['T', 'y', 'p', 'e'] (c :: cs) = none :=
    stripLit_none_of_digit hc (by decide)
  have hTs : stripLit ['T', 'y', 'p', 'e', ' ', 'o', 'f', ' ', 's', 't', 'r', 'a', 'n', 'd', 's'] (c :: cs) = none :=
    stripLit_none_of_digit hc (by decide)
  have hNs : stripLit ['N', 'u', 'm', 'b', 'e', 'r', ' ', 'o', 'f', ' ', 's', 't', 'r', 'a', 'n', 'd', 's'] (c :: cs) = none :=
    stripLit_none_of_digit hc (by decide)
  have hCo : stripLitCI ['E', 'n', 'd', ' ', 'P', 'o', 'i', 'n', 't', ' ', 'c', 'o', '-', 'o', 'r', 'i', 'n', 'a', 't', 'e', 's'] (c :: cs) = none :=
    stripLitCI_none_of_digit hc (by decide)
  have hSt : stripLitCI ['S', 't', 'a', 'r', 't'] (c :: cs) = none :=
    stripLitCI_none_of_digit hc (by decide)
  have hEn : stripLitCI ['E', 'n', 'd'] (c :: cs) = none :=
    stripLitCI_none_of_digit hc (by decide)
  exact ⟨by simp [matchTendonNo, hTe], by simp [matchLength, hLe],
    by simp [matchCoords, hCo], by simp [matchTendonType, hTy],
    by simp [matchStrandType, hTs], by simp [matchStrandNo, hNs],
    by simp [matchEndCondition, hSt], by simp [matchEndCondition, hEn]⟩

/-- A successful row match forces the line to start with a digit. -/
theorem matchRow_head {s : List Char} {g : List Char × List Char × List Char}
    (hr : matchRow s = some g) :
    ∃ c cs, s = c :: cs ∧ c.isDigit = true := by
  cases s with
  | nil => simp [matchRow] at hr
  | cons c cs =>
    by_cases hc : c.isDigit
    · exact ⟨c, cs, rfl, hc⟩
    · simp [matchRow, List.takeWhile_cons, hc] at hr

/-- C3 (amended): a blank line leaves the parser state unchanged, in
particular it does not leave table mode; a numeric row reached in table mode
(one that does not itself contain the table-start key) is appended to the
open record's profile, whether or not blank lines preceded it. Table mode is
instead exited by a non-blank line that reaches the table branch and fails
the row pattern. -/
theorem C3_blank_line_keeps_table_mode :
    (∀ (st : ParseState) (raw : List Char), pyStrip raw = [] →
        parseLine st raw = some st) ∧
    (∀ (st : ParseState) (t : TendonData) (raw g2 g3 g4 : List Char)
        (d h : ℚ),
        st.in_table = true → st.tendon = some t →
        matchRow (pyStrip raw) = some (g2, g3, g4) →
        dottedToRat g2 = some d → dottedToRat g4 = some h →
        hasInfixCI "No.,".toList (pyStrip raw) = false →
        parseLine st raw = some { st with tendon := some { t with
          points := t.points ++ [⟨ratMul d 1000, pyTrunc (ratMul h 1000)⟩] } }) := by
  constructor
  · intro st raw hblank
    simp only [parseLine]
    rw [if_pos hblank]
  · intro st t raw g2 g3 g4 d h hst htd hrow hd hh htbl
    obtain ⟨c, cs, hline, hc⟩ := matchRow_head hrow
    obtain ⟨h1, h2, h3, h4, h5, h6, h7, h8⟩ := headerMatchersFail c cs hc
    simp only [parseLine, hline] at hrow htbl ⊢
    rw [if_neg (by simp)]
    simp only [h1, htd, h2, h3, h4, h5, h6, h7, h8, htbl, hrow, hd, hh, hst,
      Bool.false_eq_true, if_false, if_true]

/-- Witness for C3 at concrete inputs: stepping a two-space line from a
table-mode state returns the state unchanged, and stepping the numeric row
`1, 2.0, 0.0, 0.0` appends the profile point (2000 mm, 0). -/
theorem C3_witness :
    parseLine { tendons := [], tendon := some bareRecord, in_table := true }
        "  ".toList =
      some { tendons := [], tendon := some bareRecord, in_table := true } ∧
    parseLine { tendons := [], tendon := some bareRecord, in_table := true }
        "1, 2.0, 0.0, 0.0".toList =
      some { tendons := [], tendon := some { bareRecord with
               points := [⟨2000, 0⟩] }, in_table := true } := by
  constructor
  · exact C3_blank_line_keeps_table_mode.1 _ _ (by decide)
  · have h := C3_blank_line_keeps_table_mode.2
      { tendons := [], tendon := some bareRecord, in_table := true }
      bareRecord "1, 2.0, 0.0, 0.0".toList
      "2.0".toList "0.0".toList "0.0".toList 2 0 rfl rfl
      (by decide) (by decide) (by decide) (by decide)
    rw [h]
    decide


/-! ### Grouping claims -/

open Classical in
/-- Each `groupLoop` pass with a non-degenerate representative partitions the
pool: concatenating the produced groups permutes the input, as long as no
tendon has effective length zero (such a tendon is dropped when it reaches
the representative position). -/
theorem groupLoop_join_perm
    (a lt dt ht sp sh : ℝ) :
    ∀ (n : Nat) (l : List GTendon), l.length ≤ n →
      (∀ t ∈ l, baseLenOf t ≠ 0) →
      (groupLoop a lt dt ht sp sh l).join.Perm l := by
  intro n
  induction n with
  | zero =>
    intro l hl _
    obtain rfl : l = [] := List.length_eq_zero.mp (Nat.le_zero.mp hl)
    simp [groupLoop]
  | succ n ih =>
    intro l hl hnd
    cases l with
    | nil => simp [groupLoop]
    | cons base rest =>
      rw [groupLoop, if_neg (hnd base (List.mem_cons_self _ _))]
      dsimp only
      simp only [List.join_cons, List.cons_append]
      refine List.Perm.cons base ?_
      have hlen : (rest.filter fun o =>
          !decide (tendonMatches base a lt dt ht sp sh o)).length ≤ n :=
        le_trans (List.length_filter_le _ _)
          (Nat.succ_le_succ_iff.mp (by simpa using hl))
      have hnd' : ∀ t ∈ (rest.filter fun o =>
          !decide (tendonMatches base a lt dt ht sp sh o)), baseLenOf t ≠ 0 :=
        fun t ht' => hnd t (List.mem_cons_of_mem _ (List.mem_of_mem_filter ht'))
      exact ((ih _ hlen hnd').append_left _).trans
        (List.filter_append_perm _ rest)

/-- C1 (amended): for every input in which each tendon has non-zero effective
length, `group_tendons` returns a partition: the concatenation of the groups
is a permutation of the input. A tendon with zero effective length is dropped
when it becomes the representative (`C1_counterexample`). -/
theorem C1_group_tendons_partition (tendons : List GTendon)
    (a lt dt ht sp sh : ℝ)
    (hnd : ∀ t ∈ tendons, baseLenOf t ≠ 0) :
    (group_tendons tendons a lt dt ht sp sh).join.Perm tendons :=
  groupLoop_join_perm a lt dt ht sp sh tendons.length tendons le_rfl hnd


theorem baseLenOf_degenerate : baseLenOf degenerateTendon = 0 := by
  simp [baseLenOf, degenerateTendon, xyzSub, xyzMag]

/-- C1 counterexample: with the default tolerances, grouping the singleton
collection holding a tendon of stored length zero with coincident endpoints
returns no group at all, so the groups do not partition the input. -/
theorem C1_counterexample :
    ¬ (group_tendons [degenerateTendon]).join.Perm [degenerateTendon] := by
  have hzero : group_tendons [degenerateTendon] = [] := by
    unfold group_tendons
    rw [groupLoop, if_pos baseLenOf_degenerate, groupLoop]
  rw [hzero]
  intro hperm
  simpa using hperm.length_eq


theorem baseLenOf_unit : baseLenOf unitTendon = 1 := by
  simp [baseLenOf, unitTendon]

/-- Witness for C1 at the concrete input `[unitTendon]` with the default
tolerances. -/
theorem C1_witness :
    (group_tendons [unitTendon]).join.Perm [unitTendon] := by
  refine C1_group_tendons_partition [unitTendon] _ _ _ _ _ _ ?_
  intro t ht
  obtain rfl : t = unitTendon := by simpa using ht
  rw [baseLenOf_unit]
  norm_num


/-! ### Plan-offset claims (C5) -/


/-- C5 (amended): the quantities the grouping predicate compares against
`spacing_tol` and `shift_tol` equal the spec's perpendicular distance and
longitudinal projection exactly when the representative's effective length
(`base_len`, the stored `length` attribute when present and non-zero) equals
the planar magnitude of its axis vector; in general the code divides by
`base_len` instead of the axis length (`C5_counterexample`). -/
theorem C5_offset_shift_vs_spec (base other : GTendon)
    (hlen : baseLenOf base = planarMag (xyzSub base.start base.endPt)) :
    offsetQuantity base other = perpDist other.start base.start base.endPt ∧
    shiftQuantity base other = longProj other.start base.start base.endPt := by
  have hden : Real.sqrt ((base.endPt.X - base.start.X) ^ 2 +
      (base.endPt.Y - base.start.Y) ^ 2) =
      planarMag (xyzSub base.start base.endPt) := by
    unfold planarMag xyzSub
    congr 1
    ring
  constructor
  · unfold offsetQuantity perpDist
    rw [hlen, ← hden]
    dsimp only [xyzSub]
    rw [show (other.start.X - base.start.X) * (base.start.Y - base.endPt.Y) -
        (other.start.Y - base.start.Y) * (base.start.X - base.endPt.X) =
        (base.endPt.X - base.start.X) * (other.start.Y - base.start.Y) -
        (base.endPt.Y - base.start.Y) * (other.start.X - base.start.X)
      from by ring]
  · unfold shiftQuantity longProj
    rw [hlen, ← hden]
    dsimp only [xyzSub]
    rw [show (other.start.X - base.start.X) * (base.start.X - base.endPt.X) +
        (other.start.Y - base.start.Y) * (base.start.Y - base.endPt.Y) =
        -((other.start.X - base.start.X) * (base.endPt.X - base.start.X) +
          (other.start.Y - base.start.Y) * (base.endPt.Y - base.start.Y))
      from by ring, abs_neg]


/-- C5 counterexample: with a stored length of 4 on an axis of planar length
2, the compared offset quantity is 1/2 while the true perpendicular distance
of the candidate's start to the axis is 1. -/
theorem C5_counterexample :
    offsetQuantity cBase cOther ≠ perpDist cOther.start cBase.start cBase.endPt := by
  have hsqrt : Real.sqrt 4 = 2 := by
    rw [show (4 : ℝ) = 2 ^ 2 by norm_num]
    exact Real.sqrt_sq (by norm_num)
  have h1 : offsetQuantity cBase cOther = 1 / 2 := by
    unfold offsetQuantity baseLenOf
    simp only [cBase, cOther, xyzSub]
    norm_num
  have h2 : perpDist cOther.start cBase.start cBase.endPt = 1 := by
    unfold perpDist
    simp only [cBase, cOther]
    norm_num [hsqrt]
  rw [h1, h2]
  norm_num


/-- Witness for C5 at a concrete flat tendon with no stored length. -/
theorem C5_witness :
    offsetQuantity wBase cOther = perpDist cOther.start wBase.start wBase.endPt ∧
    shiftQuantity wBase cOther = longProj cOther.start wBase.start wBase.endPt := by
  refine C5_offset_shift_vs_spec wBase cOther ?_
  unfold baseLenOf planarMag
  simp only [wBase, xyzSub]
  norm_num [xyzMag]


theorem runBest_some (slab_hull tendon_hull : List (ℝ × ℝ))
    (tend_cent : ℝ × ℝ) :
    ∀ (angles : List ℝ) (b0 : ℝ × ℝ × ℝ × ℝ),
      ∃ b, runBest slab_hull tendon_hull tend_cent angles (some b0) = some b := by
  intro angles
  induction angles with
  | nil => intro b0; exact ⟨b0, rfl⟩
  | cons a as ih =>
    intro b0
    simp only [runBest, List.foldl_cons]
    by_cases hlt : (_evaluate slab_hull tendon_hull tend_cent a).1 < b0.1
    · simpa [runBest, hlt] using ih _
    · simpa [runBest, hlt] using ih b0

theorem runBest_some_of_ne_nil (slab_hull tendon_hull : List (ℝ × ℝ))
    (tend_cent : ℝ × ℝ) (angles : List ℝ) (hne : angles ≠ []) :
    ∃ b, runBest slab_hull tendon_hull tend_cent angles none = some b := by
  cases angles with
  | nil => cases hne rfl
  | cons a as =>
    simp only [runBest, List.foldl_cons]
    simpa [runBest] using runBest_some slab_hull tendon_hull tend_cent as _

theorem sweepAngles_ne_nil {step : ℝ} (h : 0 < step) : sweepAngles step ≠ [] := by
  have hrad : 0 < radians step :=
    mul_pos h (div_pos Real.pi_pos (by norm_num))
  have hpos : 0 < 2 * Real.pi / radians step :=
    div_pos (by positivity) hrad
  have hceil : 0 < ⌈2 * Real.pi / radians step⌉₊ := Nat.ceil_pos.mpr hpos
  intro hnil
  have hlen := congrArg List.length hnil
  simp only [sweepAngles, List.length_map, List.length_range,
    List.length_nil] at hlen
  omega

theorem fbtCore_some (slab_hull tendon_hull : List (ℝ × ℝ))
    (angle_step_deg refine_step_deg tolerance_ft : ℝ) (allow_rotation : Bool)
    (hstep : 0 < angle_step_deg) :
    ∃ r, fbtCore slab_hull tendon_hull angle_step_deg refine_step_deg
      tolerance_ft allow_rotation = some r := by
  unfold fbtCore
  cases allow_rotation with
  | false =>
    obtain ⟨bt, hbt⟩ := runBest_some_of_ne_nil slab_hull tendon_hull
      (centroid tendon_hull) [0] (by simp)
    simp only [Bool.false_eq_true, if_false]
    rw [hbt]
    exact ⟨_, rfl⟩
  | true =>
    obtain ⟨bt, hbt⟩ := runBest_some_of_ne_nil slab_hull tendon_hull
      (centroid tendon_hull) (sweepAngles angle_step_deg)
      (sweepAngles_ne_nil hstep)
    simp only [show (true = true) = True from by simp, if_true]
    rw [hbt]
    obtain ⟨b, hb⟩ := runBest_some slab_hull tendon_hull (centroid tendon_hull)
      [bt.2.1 - radians refine_step_deg, bt.2.1 + radians refine_step_deg,
       bt.2.1 - radians refine_step_deg / 2,
       bt.2.1 + radians refine_step_deg / 2] bt
    dsimp only
    rw [hb]
    exact ⟨_, rfl⟩

/-- C7: given a non-empty target hull and a non-empty source hull (and a
positive sweep step, without which the source's angle loop does not
terminate), `find_best_transform` returns `None` exactly when the best fit
error after the snap post-process exceeds `max_error_ft`; otherwise it
returns that best transform, whose reported error is at most `max_error_ft`. -/
theorem C7_find_best_transform_acceptance
    (slab_hull tendon_pts : List (ℝ × ℝ))
    (angle_step_deg refine_step_deg max_error_ft tolerance_ft : ℝ)
    (allow_rotation : Bool)
    (hs : slab_hull ≠ []) (ht : convex_hull tendon_pts ≠ [])
    (hstep : 0 < angle_step_deg) :
    ∃ r : ℝ × ℝ × ℝ × ℝ,
      fbtCore slab_hull (convex_hull tendon_pts) angle_step_deg
        refine_step_deg tolerance_ft allow_rotation = some r ∧
      (find_best_transform slab_hull tendon_pts angle_step_deg refine_step_deg
          max_error_ft tolerance_ft allow_rotation = none ↔
        max_error_ft < r.2.2.2) ∧
      (∀ r2, find_best_transform slab_hull tendon_pts angle_step_deg
          refine_step_deg max_error_ft tolerance_ft allow_rotation = some r2 →
        r2 = r ∧ r2.2.2.2 ≤ max_error_ft) := by
  obtain ⟨r, hr⟩ := fbtCore_some slab_hull (convex_hull tendon_pts)
    angle_step_deg refine_step_deg tolerance_ft allow_rotation hstep
  refine ⟨r, hr, ?_⟩
  unfold find_best_transform
  rw [if_neg hs]
  dsimp only
  rw [if_neg ht, hr]
  dsimp only
  by_cases hgt : max_error_ft < r.2.2.2
  · rw [if_pos (by exact hgt)]
    exact ⟨by simp [hgt], by simp⟩
  · rw [if_neg (by exact hgt)]
    constructor
    · constructor
      · intro hcontra
        cases hcontra
      · intro hlt
        exact absurd hlt hgt
    · intro r2 h2
      cases h2
      exact ⟨rfl, le_of_not_lt hgt⟩

/-- Witness for C7 at a concrete one-point slab hull and one-point tendon
cloud with the source's default parameters. -/
theorem C7_witness :
    ∃ r : ℝ × ℝ × ℝ × ℝ,
      fbtCore [((0 : ℝ), (0 : ℝ))] (convex_hull [((0 : ℝ), (0 : ℝ))]) 15 5 1
        true = some r ∧
      (find_best_transform [((0 : ℝ), (0 : ℝ))] [((0 : ℝ), (0 : ℝ))] 15 5 3 1
          true = none ↔ 3 < r.2.2.2) ∧
      (∀ r2, find_best_transform [((0 : ℝ), (0 : ℝ))] [((0 : ℝ), (0 : ℝ))]
          15 5 3 1 true = some r2 → r2 = r ∧ r2.2.2.2 ≤ 3) := by
  refine C7_find_best_transform_acceptance [((0 : ℝ), (0 : ℝ))]
    [((0 : ℝ), (0 : ℝ))] 15 5 3 1 true (by simp) ?_ (by norm_num)
  have h : convex_hull [((0 : ℝ), (0 : ℝ))] = [((0 : ℝ), (0 : ℝ))] := by
    unfold convex_hull sortedPts
    simp [List.insertionSort, List.orderedInsert]
  rw [h]
  simp


/-! ## Convex hull correctness (C6)
Lemma stack for the monotone-chain construction `convex_hull`. Everything is
generic over a linear ordered field, matching the exact-arithmetic reading of
the Python floats. -/

section HullProofs

variable {α : Type*} [LinearOrderedField α]


/-! Lexicographic order toolkit. -/

theorem lexLe_total (p q : α × α) : lexLe p q ∨ lexLe q p := by
  unfold lexLe
  rcases lt_trichotomy p.1 q.1 with h | h | h
  · exact Or.inl (Or.inl h)
  · rcases le_total p.2 q.2 with h2 | h2
    · exact Or.inl (Or.inr ⟨h, h2⟩)
    · exact Or.inr (Or.inr ⟨h.symm, h2⟩)
  · exact Or.inr (Or.inl h)

theorem lexLe_trans {p q r : α × α} (h1 : lexLe p q) (h2 : lexLe q r) :
    lexLe p r := by
  unfold lexLe at *
  rcases h1 with h1 | ⟨h1, h1'⟩ <;> rcases h2 with h2 | ⟨h2, h2'⟩
  · exact Or.inl (h1.trans h2)
  · exact Or.inl (h2 ▸ h1)
  · exact Or.inl (h1 ▸ h2)
  · exact Or.inr ⟨h1.trans h2, h1'.trans h2'⟩

theorem lexLe_antisymm {p q : α × α} (h1 : lexLe p q) (h2 : lexLe q p) :
    p = q := by
  unfold lexLe at *
  rcases h1 with h1 | ⟨h1, h1'⟩ <;> rcases h2 with h2 | ⟨h2, h2'⟩
  · exact absurd (h1.trans h2) (lt_irrefl _)
  · exact absurd h1 (h2 ▸ lt_irrefl _)
  · exact absurd h2 (h1 ▸ lt_irrefl _)
  · exact Prod.ext h1 (le_antisymm h1' h2')

theorem lexLt_of_lexLe_of_ne {p q : α × α} (h : lexLe p q) (hne : p ≠ q) :
    lexLt p q := by
  unfold lexLe at h
  unfold lexLt
  rcases h with h | ⟨h, h'⟩
  · exact Or.inl h
  · refine Or.inr ⟨h, lt_of_le_of_ne h' ?_⟩
    intro h2
    exact hne (Prod.ext h h2)

theorem lexLt_irrefl (p : α × α) : ¬ lexLt p p := by
  unfold lexLt
  rintro (h | ⟨-, h⟩) <;> exact lt_irrefl _ h

theorem lexLe_of_lexLt {p q : α × α} (h : lexLt p q) : lexLe p q := by
  unfold lexLt at h
  unfold lexLe
  rcases h with h | ⟨h, h'⟩
  · exact Or.inl h
  · exact Or.inr ⟨h, le_of_lt h'⟩

theorem lexLt_trans {p q r : α × α} (h1 : lexLt p q) (h2 : lexLt q r) :
    lexLt p r := by
  unfold lexLt at *
  rcases h1 with h1 | ⟨h1, h1'⟩ <;> rcases h2 with h2 | ⟨h2, h2'⟩
  · exact Or.inl (h1.trans h2)
  · exact Or.inl (h2 ▸ h1)
  · exact Or.inl (h1 ▸ h2)
  · exact Or.inr ⟨h1.trans h2, h1'.trans h2'⟩

theorem lexLt_ne {p q : α × α} (h : lexLt p q) : p ≠ q := by
  rintro rfl
  exact lexLt_irrefl p h

theorem lexLt_x_le {p q : α × α} (h : lexLt p q) : p.1 ≤ q.1 := by
  unfold lexLt at h
  rcases h with h | ⟨h, -⟩
  · exact le_of_lt h
  · exact le_of_eq h

theorem lexLe_x_le {p q : α × α} (h : lexLe p q) : p.1 ≤ q.1 := by
  unfold lexLe at h
  rcases h with h | ⟨h, -⟩
  · exact le_of_lt h
  · exact le_of_eq h

theorem lexLt_of_not_lexLe {p q : α × α} (h : ¬ lexLe q p) : lexLt p q := by
  rcases lexLe_total p q with h1 | h1
  · exact lexLt_of_lexLe_of_ne h1 (by rintro rfl; exact h (Or.inr ⟨rfl, le_rfl⟩))
  · exact absurd h1 h

/-! Properties of `sortedPts`. -/

theorem sortedPts_perm_dedup (points : List (α × α)) :
    (sortedPts points).Perm points.dedup :=
  List.perm_insertionSort lexLe points.dedup

theorem mem_sortedPts {points : List (α × α)} {x : α × α} :
    x ∈ sortedPts points ↔ x ∈ points := by
  rw [(sortedPts_perm_dedup points).mem_iff, List.mem_dedup]

theorem sortedPts_nodup (points : List (α × α)) : (sortedPts points).Nodup :=
  ((sortedPts_perm_dedup points).nodup_iff).mpr (List.nodup_dedup points)

theorem sortedPts_sorted (points : List (α × α)) :
    (sortedPts points).Sorted lexLe :=
  List.sorted_insertionSort lexLe points.dedup

theorem sortedPts_pairwise_lt (points : List (α × α)) :
    (sortedPts points).Pairwise lexLt := by
  have h1 : (sortedPts points).Pairwise lexLe := sortedPts_sorted points
  have h2 : (sortedPts points).Pairwise (fun a b => a ≠ b) := sortedPts_nodup points
  exact (h1.and h2).imp (fun h => lexLt_of_lexLe_of_ne h.1 h.2)

/-! Cross-product algebra. -/

theorem cross_cyclic (a b c : α × α) : _cross a b c = _cross b c a := by
  unfold _cross; ring

theorem cross_swap (a b c : α × α) : _cross a b c = -_cross b a c := by
  unfold _cross; ring

/-- Forward lift: a strict left turn `u,v,w` with `p` weakly left of the
upper edge `(v, w)` and lex-beyond `w` is strictly left of the lower edge
`(u, v)`. -/
theorem cross_lift {u v w p : α × α} (huv : u.1 ≤ v.1) (hvw : lexLt v w)
    (hwp : lexLt w p) (hturn : 0 < _cross u v w) (hleft : 0 ≤ _cross v w p) :
    0 < _cross u v p := by
  have hid : _cross u v p * (w.1 - v.1) =
      _cross u v w * (p.1 - v.1) + _cross v w p * (v.1 - u.1) := by
    unfold _cross; ring
  rcases lt_or_eq_of_le (lexLt_x_le hvw) with hx | hx
  · have hp1 : v.1 < p.1 := lt_of_lt_of_le hx (lexLt_x_le hwp)
    have hpos : 0 < _cross u v p * (w.1 - v.1) := by
      rw [hid]
      have t1 : 0 < _cross u v w * (p.1 - v.1) :=
        mul_pos hturn (sub_pos.mpr hp1)
      have t2 : 0 ≤ _cross v w p * (v.1 - u.1) :=
        mul_nonneg hleft (sub_nonneg.mpr huv)
      linarith
    rcases mul_pos_iff.mp hpos with ⟨h, -⟩ | ⟨-, h⟩
    · exact h
    · exact absurd h (not_lt.mpr (le_of_lt (sub_pos.mpr hx)))
  · -- vertical upper edge : v.1 = w.1
    have hw2 : v.2 < w.2 := by
      rcases hvw with h | ⟨-, h⟩
      · exact absurd hx (ne_of_lt h)
      · exact h
    have hturn' : _cross u v w = (v.1 - u.1) * (w.2 - v.2) := by
      unfold _cross; rw [← hx]; ring
    have hux : 0 < v.1 - u.1 := by
      by_contra hcon
      have : _cross u v w ≤ 0 := by
        rw [hturn']
        exact mul_nonpos_of_nonpos_of_nonneg (not_lt.mp hcon)
          (le_of_lt (sub_pos.mpr hw2))
      exact absurd hturn (not_lt.mpr this)
    have hleft' : _cross v w p = -((w.2 - v.2) * (p.1 - v.1)) := by
      unfold _cross; rw [← hx]; ring
    have hpx : p.1 ≤ v.1 := by
      by_contra hcon
      have : _cross v w p < 0 := by
        rw [hleft']
        have := mul_pos (sub_pos.mpr hw2) (sub_pos.mpr (not_le.mp hcon))
        linarith
      exact absurd hleft (not_le.mpr this)
    have hpx' : p.1 = v.1 :=
      le_antisymm hpx (hx ▸ lexLt_x_le hwp)
    have hp2 : w.2 < p.2 := by
      rcases hwp with h | ⟨-, h⟩
      · exact absurd (hx ▸ hpx' ▸ h) (lt_irrefl _)
      · exact h
    have : _cross u v p = (v.1 - u.1) * (p.2 - v.2) := by
      unfold _cross; rw [← hpx']; ring
    rw [this]
    exact mul_pos hux (by linarith)

/-- Reverse lift: a point weakly left of the lower edge `(u, v)` of a strict
left turn and lex-at-most `v` in x is weakly left of the upper edge `(v, w)`. -/
theorem cross_revlift {u v w q : α × α} (huv : lexLt u v) (hvw : lexLt v w)
    (hqx : q.1 ≤ v.1) (hturn : 0 < _cross u v w) (hleft : 0 ≤ _cross u v q) :
    0 ≤ _cross v w q := by
  have hid : _cross v w q * (v.1 - u.1) =
      _cross u v q * (w.1 - v.1) - _cross u v w * (q.1 - v.1) := by
    unfold _cross; ring
  have hux : u.1 < v.1 := by
    rcases lt_or_eq_of_le (lexLt_x_le huv) with hx | hx
    · exact hx
    · exfalso
      have hv2 : u.2 < v.2 := by
        rcases huv with h | ⟨-, h⟩
        · exact absurd hx (ne_of_lt h)
        · exact h
      have : _cross u v w = -((v.2 - u.2) * (w.1 - u.1)) := by
        unfold _cross; rw [hx]; ring
      rw [this] at hturn
      have hw1 : u.1 ≤ w.1 := hx ▸ lexLt_x_le hvw
      nlinarith
  have hpos : 0 ≤ _cross v w q * (v.1 - u.1) := by
    rw [hid]
    have t1 : 0 ≤ _cross u v q * (w.1 - v.1) :=
      mul_nonneg hleft (sub_nonneg.mpr (lexLt_x_le hvw))
    have t2 : 0 ≤ _cross u v w * (v.1 - q.1) :=
      mul_nonneg (le_of_lt hturn) (sub_nonneg.mpr hqx)
    nlinarith
  rcases (mul_nonneg_iff).mp hpos with ⟨h, -⟩ | ⟨h, h2⟩
  · exact h
  · have := sub_pos.mpr hux
    nlinarith

end HullProofs


section HullProofs2

variable {α : Type*} [LinearOrderedField α]

theorem cross_self_right (a b : α × α) : _cross a b b = 0 := by
  unfold _cross; ring

theorem cross_swap23 (a b c : α × α) : _cross a b c = -_cross a c b := by
  unfold _cross; ring

theorem edgesLeftS_cons₂ {q t s : α × α} {rest : List (α × α)} :
    EdgesLeftS q (t :: s :: rest) ↔
      0 ≤ _cross s t q ∧ EdgesLeftS q (s :: rest) := by
  unfold EdgesLeftS
  simp only [List.tail_cons, List.zip_cons_cons, List.mem_cons,
    forall_eq_or_imp]

theorem edgesLeftS_single (q x : α × α) : EdgesLeftS q [x] := by
  unfold EdgesLeftS
  simp

theorem chainConvex_tail {t : α × α} {S : List (α × α)}
    (h : ChainConvex (t :: S)) : ChainConvex S := by
  match S with
  | [] => trivial
  | [x] => trivial
  | y :: x :: rest => exact h.2

theorem chainConvex_cons₃ {z y x : α × α} {rest : List (α × α)} :
    ChainConvex (z :: y :: x :: rest) ↔
      0 < _cross x y z ∧ ChainConvex (y :: x :: rest) := Iff.rfl

/-- All chain edges of a sorted strictly-convex stack whose top edge turns
strictly left towards `p` see `p` weakly on their left. -/
theorem edgesLeftS_top_of_turn (p : α × α) :
    ∀ (rest : List (α × α)) (t s : α × α),
      StackSorted (t :: s :: rest) → ChainConvex (t :: s :: rest) →
      (∀ x ∈ t :: s :: rest, lexLt x p) →
      0 < _cross s t p →
      EdgesLeftS p (t :: s :: rest) := by
  intro rest
  induction rest with
  | nil =>
    intro t s _ _ _ htop
    rw [edgesLeftS_cons₂]
    exact ⟨le_of_lt htop, edgesLeftS_single p s⟩
  | cons r rest' ih =>
    intro t s hsort hconv hmem htop
    rw [edgesLeftS_cons₂]
    refine ⟨le_of_lt htop, ?_⟩
    have hsort' : StackSorted (s :: r :: rest') := (List.chain'_cons.mp hsort).2
    have hrs : lexLt r s := (List.chain'_cons.mp hsort').1
    have hst : lexLt s t := (List.chain'_cons.mp hsort).1
    have htp : lexLt t p := hmem t (by simp)
    have hturn : 0 < _cross r s t := (chainConvex_cons₃.mp hconv).1
    refine ih s r hsort' (chainConvex_tail hconv)
      (fun x hx => hmem x (List.mem_cons_of_mem t hx)) ?_
    exact cross_lift (lexLt_x_le hrs) hst htp hturn (le_of_lt htop)

/-- Full specification of one monotone-chain push: popping preserves the
stack invariants, every processed point stays weakly left of every surviving
and new edge, and the new top edge sees every processed point weakly on its
left. -/
theorem chPush_spec (p : α × α) (P : List (α × α)) :
    ∀ S : List (α × α), S ≠ [] →
    StackSorted S → ChainConvex S →
    (∀ x ∈ S, lexLt x p) →
    (∀ q ∈ P, EdgesLeftS q S) →
    (∀ q ∈ P, lexLt q p) →
    (∀ q ∈ P, ∀ z, S.getLast? = some z → lexLe z q) →
    (∀ q ∈ P, ∀ hd, S.head? = some hd → lexLe hd q → 0 ≤ _cross hd p q) →
    ∃ T, chPush p S = p :: T ∧ T ≠ [] ∧
      T.getLast? = S.getLast? ∧
      (∀ x ∈ T, x ∈ S) ∧
      StackSorted T ∧ ChainConvex (p :: T) ∧
      (∀ q ∈ P, EdgesLeftS q T) ∧
      EdgesLeftS p (p :: T) ∧
      (∀ q ∈ P, ∀ hd, T.head? = some hd → 0 ≤ _cross hd p q) := by
  intro S
  induction S with
  | nil => intro h; cases h rfl
  | cons t S' ih =>
    intro _ hsort hconv hsp hPS hPp hbot hH5
    cases S' with
    | nil =>
      refine ⟨[t], rfl, by simp, rfl, by simp, by simp [StackSorted],
        trivial, fun q _ => edgesLeftS_single q t, ?_, ?_⟩
      · rw [edgesLeftS_cons₂]
        exact ⟨le_of_eq (cross_self_right t p).symm, edgesLeftS_single p t⟩
      · intro q hq hd hhd
        obtain rfl : t = hd := by simpa using hhd
        exact hH5 q hq t rfl (hbot q hq t rfl)
    | cons s rest =>
      have hst : lexLt s t := (List.chain'_cons.mp hsort).1
      have htp : lexLt t p := hsp t (by simp)
      have hsp' : lexLt s p := lexLt_trans hst htp
      by_cases hpop : _cross s t p ≤ 0
      · -- pop `t`, recurse on `s :: rest`
        have hcert : 0 ≤ _cross s p t := by
          rw [cross_swap23]
          linarith
        have hH5' : ∀ q ∈ P, ∀ hd, (s :: rest).head? = some hd →
            lexLe hd q → 0 ≤ _cross hd p q := by
          intro q hq hd hhd hsq
          obtain rfl : s = hd := by simpa using hhd
          have hq1 : q.1 ≤ p.1 := lexLt_x_le (hPp q hq)
          have ht1 : t.1 ≤ p.1 := lexLt_x_le htp
          have hs1 : s.1 ≤ p.1 := lexLt_x_le hsp'
          rcases lexLe_total t q with htq | hqt
          · -- q lex-at-least t
            have h1 : 0 ≤ _cross t p q := hH5 q hq t rfl htq
            have hid : _cross s p q * (t.1 - p.1) =
                _cross s p t * (q.1 - p.1) + _cross t p q * (s.1 - p.1) := by
              unfold _cross; ring
            rcases lt_or_eq_of_le ht1 with hx | hx
            · have hterm : _cross s p q * (t.1 - p.1) ≤ 0 := by
                rw [hid]
                have u1 : _cross s p t * (q.1 - p.1) ≤ 0 :=
                  mul_nonpos_of_nonneg_of_nonpos hcert (by linarith)
                have u2 : _cross t p q * (s.1 - p.1) ≤ 0 :=
                  mul_nonpos_of_nonneg_of_nonpos h1 (by linarith)
                linarith
              nlinarith
            · -- t.1 = p.1 : everything collapses to one vertical
              have hp2 : t.2 < p.2 := by
                rcases htp with h | ⟨-, h⟩
                · exact absurd hx (ne_of_lt h)
                · exact h
              have hc : _cross s t p = (t.1 - s.1) * (p.2 - t.2) := by
                unfold _cross; rw [hx]; ring
              have hs1' : s.1 = t.1 := by
                have hts : s.1 ≤ t.1 := lexLt_x_le hst
                rcases lt_or_eq_of_le hts with hlt | heq
                · exfalso
                  rw [hc] at hpop
                  nlinarith
                · exact heq
              have hq1' : q.1 = s.1 := by
                have : s.1 ≤ q.1 := lexLe_x_le hsq
                have : q.1 ≤ s.1 := by rw [hs1', hx]; exact hq1
                linarith [lexLe_x_le hsq]
              have hps : p.1 = s.1 := by rw [← hx, ← hs1']
              have : _cross s p q = 0 := by
                unfold _cross
                rw [hps, hq1']
                ring
              rw [this]
          · -- q lex-below t : use the old edge (s, t)
            have hqt' : lexLe q t := hqt
            have hleft : 0 ≤ _cross s t q :=
              (edgesLeftS_cons₂.mp (hPS q hq)).1
            have hid : _cross s p q * (t.1 - s.1) =
                _cross s t q * (p.1 - s.1) - _cross s t p * (q.1 - s.1) := by
              unfold _cross; ring
            have hsq1 : s.1 ≤ q.1 := lexLe_x_le hsq
            rcases lt_or_eq_of_le (lexLt_x_le hst) with hx | hx
            · have hterm : 0 ≤ _cross s p q * (t.1 - s.1) := by
                rw [hid]
                have u1 : 0 ≤ _cross s t q * (p.1 - s.1) :=
                  mul_nonneg hleft (by linarith)
                have u2 : _cross s t p * (q.1 - s.1) ≤ 0 :=
                  mul_nonpos_of_nonpos_of_nonneg hpop (by linarith)
                linarith
              nlinarith
            · have hq1' : q.1 = s.1 := by
                have := lexLe_x_le hqt'
                rw [← hx] at this
                linarith
              have hq2 : s.2 ≤ q.2 := by
                rcases hsq with h | ⟨-, h⟩
                · exact absurd h (by rw [hq1']; exact lt_irrefl _)
                · exact h
              have : _cross s p q = (p.1 - s.1) * (q.2 - s.2) := by
                unfold _cross; rw [← hq1']; ring
              rw [this]
              exact mul_nonneg (by linarith) (by linarith)
        obtain ⟨T, hT, hTne, hTlast, hTsub, hTsort, hTconv, hTP, hTp, hTB⟩ :=
          ih (by simp) (List.chain'_cons.mp hsort).2 (chainConvex_tail hconv)
            (fun x hx => hsp x (List.mem_cons_of_mem t hx))
            (fun q hq => (edgesLeftS_cons₂.mp (hPS q hq)).2) hPp
            (fun q hq z hz => hbot q hq z (by
              rw [List.getLast?_cons_cons]
              exact hz)) hH5'
        refine ⟨T, ?_, hTne, ?_, fun x hx => List.mem_cons_of_mem t (hTsub x hx),
          hTsort, hTconv, hTP, hTp, hTB⟩
        · show chPush p (t :: s :: rest) = p :: T
          simp only [chPush]
          rw [if_pos hpop]
          exact hT
        · rw [hTlast, List.getLast?_cons_cons]
      · -- keep : the stop condition holds
        push_neg at hpop
        refine ⟨t :: s :: rest, ?_, by simp, rfl, fun x hx => hx, hsort,
          ?_, hPS, ?_, ?_⟩
        · show chPush p (t :: s :: rest) = p :: t :: s :: rest
          simp only [chPush]
          rw [if_neg (not_le.mpr hpop)]
        · exact ⟨hpop, hconv⟩
        · rw [edgesLeftS_cons₂]
          refine ⟨le_of_eq (cross_self_right t p).symm, ?_⟩
          exact edgesLeftS_top_of_turn p rest t s hsort hconv hsp hpop
        · intro q hq hd hhd
          obtain rfl : t = hd := by simpa using hhd
          rcases lexLe_total t q with htq | hqt
          · exact hH5 q hq t rfl htq
          · have hleft : 0 ≤ _cross s t q :=
              (edgesLeftS_cons₂.mp (hPS q hq)).1
            exact cross_revlift hst (hsp t (by simp)) (lexLe_x_le hqt)
              hpop hleft

end HullProofs2


section HullProofs3

variable {α : Type*} [LinearOrderedField α]

theorem cross_self_outer (a b : α × α) : _cross a b a = 0 := by
  unfold _cross; ring

theorem pairwise_head_min {l : List (α × α)} (h : l.Pairwise lexLt) :
    ∀ q ∈ l, ∀ z, l.head? = some z → lexLe z q := by
  cases l with
  | nil => intro q hq; cases hq
  | cons a l' =>
    intro q hq z hz
    obtain rfl : a = z := by simpa using hz
    rcases List.mem_cons.mp hq with rfl | hq'
    · exact Or.inr ⟨rfl, le_rfl⟩
    · exact lexLe_of_lexLt ((List.pairwise_cons.mp h).1 q hq')

theorem pairwise_getLast_max {l : List (α × α)} (h : l.Pairwise lexLt) :
    ∀ q ∈ l, ∀ z, l.getLast? = some z → lexLe q z := by
  induction l with
  | nil => intro q hq; cases hq
  | cons a l' ih =>
    intro q hq z hz
    cases l' with
    | nil =>
      obtain rfl : a = z := by simpa using hz
      obtain rfl : q = a := by simpa using hq
      exact Or.inr ⟨rfl, le_rfl⟩
    | cons b l'' =>
      rw [List.getLast?_cons_cons] at hz
      have hz' : z ∈ b :: l'' := by
        obtain ⟨hne2, rfl⟩ := List.mem_getLast?_eq_getLast (x := z) hz
        exact List.getLast_mem hne2
      rcases List.mem_cons.mp hq with rfl | hq'
      · exact lexLe_of_lexLt ((List.pairwise_cons.mp h).1 z hz')
      · exact ih (List.pairwise_cons.mp h).2 q hq' z hz

theorem chain_append_singleton (P : List (α × α)) (p : α × α) :
    chain (P ++ [p]) = chPush p (chain P) := by
  simp [chain, List.foldl_append]

/-- Fold invariant of a half-hull pass over a strictly lex-sorted point
list: the resulting stack is a non-empty convex, lex-decreasing sub-chain
running from the last input point (head) to the first (bottom), and every
input point lies weakly left of every stack edge. -/
theorem chain_spec (pts : List (α × α)) :
    pts.Pairwise lexLt → pts ≠ [] →
    chain pts ≠ [] ∧
    (chain pts).head? = pts.getLast? ∧
    (chain pts).getLast? = pts.head? ∧
    (∀ x ∈ chain pts, x ∈ pts) ∧
    StackSorted (chain pts) ∧
    ChainConvex (chain pts) ∧
    (∀ q ∈ pts, EdgesLeftS q (chain pts)) := by
  induction pts using List.reverseRecOn with
  | nil => intro _ hne; cases hne rfl
  | append_singleton P p ih =>
    intro hsort hne
    rcases eq_or_ne P [] with rfl | hP
    · have hval : chain ([] ++ [p]) = [p] := rfl
      rw [hval]
      exact ⟨by simp, rfl, rfl, by simp, List.chain'_singleton p, trivial,
        fun q _ => edgesLeftS_single q p⟩
    · have hsortP : P.Pairwise lexLt := (List.pairwise_append.mp hsort).1
      have hPp : ∀ q ∈ P, lexLt q p := by
        intro q hq
        exact (List.pairwise_append.mp hsort).2.2 q hq p (by simp)
      obtain ⟨h1, h2, h3, h4, h5, h6, h7⟩ := ih hsortP hP
      obtain ⟨T, hT, hTne, hTlast, hTsub, hTsort, hTconv, hTP, hTp, hTB⟩ :=
        chPush_spec p P (chain P) h1 h5 h6
          (fun x hx => hPp x (h4 x hx)) h7 hPp
          (fun q hq z hz =>
            pairwise_head_min hsortP q hq z (by rw [← h3]; exact hz))
          (fun q hq hd hhd hle => by
            have hPh : P.getLast? = some hd := by rw [← h2]; exact hhd
            have hmax : lexLe q hd := pairwise_getLast_max hsortP q hq hd hPh
            have hqeq : q = hd := lexLe_antisymm hmax hle
            rw [hqeq]
            exact le_of_eq (cross_self_outer hd p).symm)
      rw [chain_append_singleton, hT]
      cases T with
      | nil => cases hTne rfl
      | cons t T' =>
        cases P with
        | nil => cases hP rfl
        | cons a P' =>
          refine ⟨by simp, ?_, ?_, ?_, ?_, hTconv, ?_⟩
          · rw [List.getLast?_concat]
            rfl
          · rw [List.getLast?_cons_cons, hTlast, h3]
            rfl
          · intro x hx
            rcases List.mem_cons.mp hx with rfl | hx'
            · exact List.mem_append.mpr (Or.inr (by simp))
            · exact List.mem_append.mpr (Or.inl (h4 x (hTsub x hx')))
          · exact List.chain'_cons.mpr
              ⟨hPp t (h4 t (hTsub t (by simp))), hTsort⟩
          · intro q hq
            rcases List.mem_append.mp hq with hq' | hq'
            · exact edgesLeftS_cons₂.mpr ⟨hTB q hq' t rfl, hTP q hq'⟩
            · obtain rfl : q = p := by simpa using hq'
              exact hTp

end HullProofs3


section HullProofs4

variable {α : Type*} [LinearOrderedField α]

theorem pathPairs_cons {γ : Type*} (x y : γ) (t : List γ) (z : γ) :
    pathPairs (x :: y :: t) z = (x, y) :: pathPairs (y :: t) z := rfl

theorem pathPairs_single {γ : Type*} (x z : γ) :
    pathPairs [x] z = [(x, z)] := rfl

theorem adjPairs_cons₂ (x y : α × α) (t : List (α × α)) :
    adjPairs (x :: y :: t) = (x, y) :: adjPairs (y :: t) := rfl

theorem adjPairs_concat : ∀ (l : List (α × α)) (z : α × α),
    adjPairs (l ++ [z]) = pathPairs l z
  | [], _ => rfl
  | [_], _ => rfl
  | x :: y :: t, z => by
    have h1 : adjPairs ((x :: y :: t) ++ [z])
        = (x, y) :: adjPairs ((y :: t) ++ [z]) := rfl
    rw [h1, adjPairs_concat (y :: t) z, pathPairs_cons]

theorem pathPairs_append {γ : Type*} :
    ∀ (l₁ : List γ) (b : γ) (l₂ : List γ) (z : γ),
    pathPairs (l₁ ++ b :: l₂) z = pathPairs l₁ b ++ pathPairs (b :: l₂) z
  | [], _, _, _ => rfl
  | [_], _, _, _ => rfl
  | x :: y :: t, b, l₂, z => by
    have h1 : pathPairs ((x :: y :: t) ++ b :: l₂) z
        = (x, y) :: pathPairs ((y :: t) ++ b :: l₂) z := rfl
    rw [h1, pathPairs_append (y :: t) b l₂ z, pathPairs_cons]
    rfl

theorem cyclicPairs_cons {γ : Type*} (a : γ) (t : List γ) :
    cyclicPairs (a :: t) = pathPairs (a :: t) a := by
  show (a :: t).zip ((a :: t).rotate 1) = (a :: t).zip (t ++ [a])
  rw [show (1 : ℕ) = 0 + 1 from rfl, List.rotate_cons_succ, List.rotate_zero]

/-- Splitting the cyclic edge list of a closed polygon made of two open
chains that share their endpoints. -/
theorem cyclicPairs_glue (a b : α × α) (A B : List (α × α)) :
    cyclicPairs ((a :: A) ++ (b :: B)) =
      adjPairs ((a :: A) ++ [b]) ++ adjPairs ((b :: B) ++ [a]) := by
  have h1 : (a :: A) ++ (b :: B) = a :: (A ++ b :: B) := rfl
  rw [h1, cyclicPairs_cons, adjPairs_concat, adjPairs_concat]
  show pathPairs ((a :: A) ++ b :: B) a = _
  rw [pathPairs_append (a :: A) b B a]

theorem pathPairs_reverse {γ : Type*} : ∀ (t : List γ) (z : γ),
    pathPairs t.reverse z = (t.zip (z :: t)).reverse
  | [], _ => rfl
  | y :: ys, z => by
    rw [List.reverse_cons, pathPairs_append ys.reverse y [] z,
      pathPairs_reverse ys y, pathPairs_single]
    show (ys.zip (y :: ys)).reverse ++ [(y, z)]
        = ((y, z) :: ys.zip (y :: ys)).reverse
    rw [List.reverse_cons]

/-- The traversal-order edges of a reversed stack are exactly the stack's
upward edges, listed backwards. -/
theorem adjPairs_reverse : ∀ l : List (α × α),
    adjPairs l.reverse = (l.tail.zip l).reverse
  | [] => rfl
  | x :: xs => by
    rw [List.reverse_cons, adjPairs_concat, pathPairs_reverse]
    rfl


theorem negP_negP (q : α × α) : negP (negP q) = q := by
  simp [negP]

theorem option_map_negP_negP (o : Option (α × α)) :
    (o.map negP).map negP = o := by
  cases o with
  | none => rfl
  | some q => simp [negP_negP]

theorem cross_negP (o a b : α × α) :
    _cross (negP o) (negP a) (negP b) = _cross o a b := by
  simp only [_cross, negP]
  ring

theorem lexLt_negP {p q : α × α} : lexLt (negP p) (negP q) ↔ lexLt q p := by
  simp only [lexLt, negP]
  constructor
  · rintro (h | ⟨h1, h2⟩)
    · exact Or.inl (by linarith)
    · exact Or.inr ⟨by linarith, by linarith⟩
  · rintro (h | ⟨h1, h2⟩)
    · exact Or.inl (by linarith)
    · exact Or.inr ⟨by linarith, by linarith⟩

theorem chPush_map_negP (p : α × α) : ∀ S : List (α × α),
    chPush (negP p) (S.map negP) = (chPush p S).map negP
  | [] => rfl
  | [_] => rfl
  | b :: a :: rest => by
    show chPush (negP p) (negP b :: negP a :: rest.map negP) = _
    simp only [chPush, cross_negP]
    by_cases h : _cross a b p ≤ 0
    · rw [if_pos h, if_pos h]
      exact chPush_map_negP p (a :: rest)
    · rw [if_neg h, if_neg h]
      rfl

theorem foldl_chPush_map_negP : ∀ (l : List (α × α)) (S : List (α × α)),
    (l.map negP).foldl (fun st p => chPush p st) (S.map negP) =
      (l.foldl (fun st p => chPush p st) S).map negP
  | [], _ => rfl
  | x :: xs, S => by
    show (xs.map negP).foldl (fun st p => chPush p st)
        (chPush (negP x) (S.map negP)) = _
    rw [chPush_map_negP x S]
    exact foldl_chPush_map_negP xs (chPush x S)

theorem chain_map_negP (l : List (α × α)) :
    chain (l.map negP) = (chain l).map negP := by
  have h := foldl_chPush_map_negP l []
  simpa [chain] using h

theorem cross_self_left (a b : α × α) : _cross a a b = 0 := by
  unfold _cross
  ring

/-- The doubled shoelace area as a sum of cross products plus telescoping
correction terms anchored at an arbitrary point. -/
theorem sum_map_expand (P : α × α) : ∀ L : List ((α × α) × (α × α)),
    (L.map (fun e => e.1.1 * e.2.2 - e.1.2 * e.2.1)).sum =
      (L.map (fun e => _cross P e.1 e.2)).sum
        + P.1 * ((L.map (fun e => e.2.2)).sum - (L.map (fun e => e.1.2)).sum)
        + P.2 * ((L.map (fun e => e.1.1)).sum - (L.map (fun e => e.2.1)).sum)
  | [] => by simp
  | x :: t => by
    simp only [List.map_cons, List.sum_cons, sum_map_expand P t, _cross]
    ring

/-- The doubled signed area of a closed polygon equals the sum of cross
products at any anchor point: the correction terms telescope over the
cycle. -/
theorem signedArea2_eq_sum_cross (P : α × α) (l : List (α × α)) :
    signedArea2 l = ((cyclicPairs l).map (fun e => _cross P e.1 e.2)).sum := by
  have hlen : l.length ≤ (l.rotate 1).length := by rw [List.length_rotate]
  have hlen2 : (l.rotate 1).length ≤ l.length := by rw [List.length_rotate]
  have hfst : (cyclicPairs l).map Prod.fst = l :=
    List.map_fst_zip l (l.rotate 1) hlen
  have hsnd : (cyclicPairs l).map Prod.snd = l.rotate 1 :=
    List.map_snd_zip l (l.rotate 1) hlen2
  have h12 : (cyclicPairs l).map (fun e => e.1.2) = l.map Prod.snd := by
    rw [show (fun (e : (α × α) × (α × α)) => e.1.2)
        = Prod.snd ∘ Prod.fst from rfl, ← List.map_map, hfst]
  have h22 : (cyclicPairs l).map (fun e => e.2.2)
      = (l.rotate 1).map Prod.snd := by
    rw [show (fun (e : (α × α) × (α × α)) => e.2.2)
        = Prod.snd ∘ Prod.snd from rfl, ← List.map_map, hsnd]
  have h11 : (cyclicPairs l).map (fun e => e.1.1) = l.map Prod.fst := by
    rw [show (fun (e : (α × α) × (α × α)) => e.1.1)
        = Prod.fst ∘ Prod.fst from rfl, ← List.map_map, hfst]
  have h21 : (cyclicPairs l).map (fun e => e.2.1)
      = (l.rotate 1).map Prod.fst := by
    rw [show (fun (e : (α × α) × (α × α)) => e.2.1)
        = Prod.fst ∘ Prod.snd from rfl, ← List.map_map, hsnd]
  have hrot2 : ((l.rotate 1).map Prod.snd).sum = (l.map Prod.snd).sum :=
    ((List.rotate_perm l 1).map Prod.snd).sum_eq
  have hrot1 : ((l.rotate 1).map Prod.fst).sum = (l.map Prod.fst).sum :=
    ((List.rotate_perm l 1).map Prod.fst).sum_eq
  show ((cyclicPairs l).map (fun e => e.1.1 * e.2.2 - e.1.2 * e.2.1)).sum = _
  rw [sum_map_expand P (cyclicPairs l), h12, h22, h11, h21, hrot2, hrot1]
  ring

theorem sum_pos_of_mem_pos : ∀ {l : List α}, (∀ x ∈ l, 0 ≤ x) →
    ∀ {y : α}, y ∈ l → 0 < y → 0 < l.sum := by
  intro l
  induction l with
  | nil => intro _ y hy; cases hy
  | cons x t ih =>
    intro h y hy hpos
    rw [List.sum_cons]
    rcases List.mem_cons.mp hy with rfl | hy2
    · have h0 : 0 ≤ t.sum :=
        List.sum_nonneg (fun z hz => h z (List.mem_cons_of_mem _ hz))
      linarith
    · have h0 : 0 ≤ x := h x (by simp)
      have h1 := ih (fun z hz => h z (List.mem_cons_of_mem x hz)) hy2 hpos
      linarith

/-- Three points each on the line through two distinct points are
collinear. -/
theorem cross_eq_zero_of_on_line {u v a b c : α × α} (huv : u ≠ v)
    (ha : _cross u v a = 0) (hb : _cross u v b = 0) (hc : _cross u v c = 0) :
    _cross a b c = 0 := by
  have hd : v.1 - u.1 ≠ 0 ∨ v.2 - u.2 ≠ 0 := by
    by_contra hcon
    push_neg at hcon
    apply huv
    have h1 : u.1 = v.1 := by linarith [hcon.1]
    have h2 : u.2 = v.2 := by linarith [hcon.2]
    exact Prod.ext h1 h2
  rcases hd with hd | hd
  · have key : (v.1 - u.1) ^ 2 * _cross a b c = 0 := by
      simp only [_cross] at ha hb hc ⊢
      linear_combination ((b.1 - a.1) * (v.1 - u.1)) * hc
        - ((c.1 - a.1) * (v.1 - u.1)) * hb
        + ((c.1 - b.1) * (v.1 - u.1)) * ha
    rcases mul_eq_zero.mp key with h | h
    · exact absurd (sq_eq_zero_iff.mp h) hd
    · exact h
  · have key : (v.2 - u.2) ^ 2 * _cross a b c = 0 := by
      simp only [_cross] at ha hb hc ⊢
      linear_combination ((b.2 - a.2) * (v.2 - u.2)) * hc
        - ((c.2 - a.2) * (v.2 - u.2)) * hb
        + ((c.2 - b.2) * (v.2 - u.2)) * ha
    rcases mul_eq_zero.mp key with h | h
    · exact absurd (sq_eq_zero_iff.mp h) hd
    · exact h

/-- Core of the hull verification for a strictly lex-sorted point list with
at least two points: the two-pass hull is a subset of the input, every input
point is weakly left of every cyclic hull edge, and three non-collinear
input points force a strictly positive doubled signed area. -/
theorem hull_core (pts : List (α × α)) (hsort : pts.Pairwise lexLt)
    (hlen2 : 1 < pts.length) :
    (∀ x ∈ (chain pts).reverse.dropLast ++
        (chain pts.reverse).reverse.dropLast, x ∈ pts) ∧
    (∀ q ∈ pts, ∀ e ∈ cyclicPairs ((chain pts).reverse.dropLast ++
        (chain pts.reverse).reverse.dropLast), 0 ≤ _cross e.1 e.2 q) ∧
    ((∃ a ∈ pts, ∃ b ∈ pts, ∃ c ∈ pts, _cross a b c ≠ 0) →
      0 < signedArea2 ((chain pts).reverse.dropLast ++
        (chain pts.reverse).reverse.dropLast)) := by
  have hne : pts ≠ [] := by
    intro h
    rw [h] at hlen2
    simp at hlen2
  obtain ⟨hL1, hL2, hL3, hL4, hL5, -, hL7⟩ := chain_spec pts hsort hne
  have hsortN : (pts.reverse.map negP).Pairwise lexLt := by
    rw [List.pairwise_map]
    exact (List.pairwise_reverse.mpr hsort).imp (fun h => lexLt_negP.mpr h)
  have hneN : pts.reverse.map negP ≠ [] := by
    intro h
    exact hne (by simpa using h)
  obtain ⟨hV1, hV2, hV3, hV4, hV5, -, hV7⟩ :=
    chain_spec (pts.reverse.map negP) hsortN hneN
  have hUeq : chain pts.reverse = (chain (pts.reverse.map negP)).map negP := by
    have h1 : (pts.reverse.map negP).map negP = pts.reverse := by
      rw [List.map_map]
      have h2 : negP (α := α) ∘ negP = fun q => q := funext fun q => negP_negP q
      rw [h2]
      simp
    conv_lhs => rw [← h1]
    exact chain_map_negP _
  have hU1 : chain pts.reverse ≠ [] := by
    rw [hUeq]
    intro h
    exact hV1 (List.map_eq_nil_iff.mp h)
  have hU2 : (chain pts.reverse).head? = pts.head? := by
    rw [hUeq, List.head?_map, hV2, List.getLast?_map, List.getLast?_reverse,
      option_map_negP_negP]
  have hU3 : (chain pts.reverse).getLast? = pts.getLast? := by
    rw [hUeq, List.getLast?_map, hV3, List.head?_map, List.head?_reverse,
      option_map_negP_negP]
  have hU4 : ∀ x ∈ chain pts.reverse, x ∈ pts := by
    intro x hx
    rw [hUeq] at hx
    obtain ⟨v, hv, rfl⟩ := List.mem_map.mp hx
    obtain ⟨r, hr, rfl⟩ := List.mem_map.mp (hV4 v hv)
    rw [negP_negP]
    exact List.mem_reverse.mp hr
  have hU7 : ∀ q ∈ pts, ∀ e ∈ (chain pts.reverse).tail.zip (chain pts.reverse),
      0 ≤ _cross e.1 e.2 q := by
    intro q hq e he
    rw [hUeq] at he
    have htail : ((chain (pts.reverse.map negP)).map negP).tail
        = (chain (pts.reverse.map negP)).tail.map negP := by
      cases chain (pts.reverse.map negP) with
      | nil => rfl
      | cons v vs => rfl
    rw [htail, List.zip_map] at he
    obtain ⟨e2, he2, rfl⟩ := List.mem_map.mp he
    have hq2 : negP q ∈ pts.reverse.map negP :=
      List.mem_map_of_mem negP (List.mem_reverse.mpr hq)
    have h0 : 0 ≤ _cross e2.1 e2.2 (negP q) := hV7 (negP q) hq2 e2 he2
    have h1 : _cross (Prod.map negP negP e2).1 (Prod.map negP negP e2).2 q
        = _cross e2.1 e2.2 (negP q) := by
      show _cross (negP e2.1) (negP e2.2) q = _
      conv_lhs => rw [← negP_negP q]
      exact cross_negP e2.1 e2.2 (negP q)
    rw [h1]
    exact h0
  obtain ⟨m, pts2, rfl⟩ : ∃ m pts2, pts = m :: pts2 := by
    cases pts with
    | nil => cases hne rfl
    | cons m pts2 => exact ⟨m, pts2, rfl⟩
  have hpts2 : pts2 ≠ [] := by
    intro h
    rw [h] at hlen2
    simp at hlen2
  obtain ⟨M, hMlast, hMmem⟩ :
      ∃ M, (m :: pts2).getLast? = some M ∧ M ∈ pts2 := by
    cases pts2 with
    | nil => cases hpts2 rfl
    | cons b t =>
      refine ⟨(b :: t).getLast (by simp), ?_, List.getLast_mem (by simp)⟩
      rw [List.getLast?_cons_cons]
      exact List.getLast?_eq_getLast_of_ne_nil (by simp)
  have hmM : lexLt m M := (List.pairwise_cons.mp hsort).1 M hMmem
  have hmMne : m ≠ M := lexLt_ne hmM
  obtain ⟨l0, l1, Lr, hLshape⟩ :
      ∃ l0 l1 Lr, chain (m :: pts2) = l0 :: l1 :: Lr := by
    cases hc : chain (m :: pts2) with
    | nil => exact absurd hc hL1
    | cons x xs =>
      cases xs with
      | nil =>
        exfalso
        rw [hc] at hL2 hL3
        rw [hMlast] at hL2
        have hxM : x = M := by simpa using hL2
        have hxm : x = m := by simpa using hL3
        exact hmMne (by rw [← hxm, hxM])
      | cons y ys => exact ⟨x, y, ys, rfl⟩
  obtain ⟨u0, u1, Ur, hUshape⟩ :
      ∃ u0 u1 Ur, chain (m :: pts2).reverse = u0 :: u1 :: Ur := by
    cases hc : chain (m :: pts2).reverse with
    | nil => exact absurd hc hU1
    | cons x xs =>
      cases xs with
      | nil =>
        exfalso
        rw [hc] at hU2 hU3
        rw [hMlast] at hU3
        have hxm : x = m := by simpa using hU2
        have hxM : x = M := by simpa using hU3
        exact hmMne (by rw [← hxm, hxM])
      | cons y ys => exact ⟨x, y, ys, rfl⟩
  have hA : (chain (m :: pts2)).reverse.dropLast ++ [M]
      = (chain (m :: pts2)).reverse := by
    apply List.dropLast_append_getLast?
    show M ∈ ((chain (m :: pts2)).reverse).getLast?
    rw [List.getLast?_reverse, hL2, hMlast]
    rfl
  have hB : (chain (m :: pts2).reverse).reverse.dropLast ++ [m]
      = (chain (m :: pts2).reverse).reverse := by
    apply List.dropLast_append_getLast?
    show m ∈ ((chain (m :: pts2).reverse).reverse).getLast?
    rw [List.getLast?_reverse, hU2]
    rfl
  have hA2 : (chain (m :: pts2)).reverse.dropLast = (l1 :: Lr).reverse := by
    rw [hLshape, List.reverse_cons, List.dropLast_concat]
  obtain ⟨a2, A2, hA2shape⟩ : ∃ a2 A2, (l1 :: Lr).reverse = a2 :: A2 := by
    cases hcc : (l1 :: Lr).reverse with
    | nil => exact absurd (List.reverse_eq_nil_iff.mp hcc) (by simp)
    | cons x xs => exact ⟨x, xs, rfl⟩
  have ha2m : a2 = m := by
    have h9 : (l1 :: Lr).reverse.head? = some m := by
      rw [List.head?_reverse]
      have h8 := hL3
      rw [hLshape, List.getLast?_cons_cons] at h8
      exact h8
    rw [hA2shape] at h9
    simpa using h9
  have hB2 : (chain (m :: pts2).reverse).reverse.dropLast
      = (u1 :: Ur).reverse := by
    rw [hUshape, List.reverse_cons, List.dropLast_concat]
  obtain ⟨b2, B2, hB2shape⟩ : ∃ b2 B2, (u1 :: Ur).reverse = b2 :: B2 := by
    cases hcc : (u1 :: Ur).reverse with
    | nil => exact absurd (List.reverse_eq_nil_iff.mp hcc) (by simp)
    | cons x xs => exact ⟨x, xs, rfl⟩
  have hb2M : b2 = M := by
    have h9 : (u1 :: Ur).reverse.head? = some M := by
      rw [List.head?_reverse]
      have h8 := hU3
      rw [hUshape, List.getLast?_cons_cons, hMlast] at h8
      exact h8
    rw [hB2shape] at h9
    simpa using h9
  have hAfull : (chain (m :: pts2)).reverse = (m :: A2) ++ [M] := by
    rw [← hA, hA2, hA2shape, ha2m]
  have hBfull : (chain (m :: pts2).reverse).reverse = (M :: B2) ++ [m] := by
    rw [← hB, hB2, hB2shape, hb2M]
  have hhull2 : (chain (m :: pts2)).reverse.dropLast ++
      (chain (m :: pts2).reverse).reverse.dropLast = (m :: A2) ++ (M :: B2) := by
    rw [hA2, hA2shape, ha2m, hB2, hB2shape, hb2M]
  have hcyc : cyclicPairs ((chain (m :: pts2)).reverse.dropLast ++
      (chain (m :: pts2).reverse).reverse.dropLast)
      = adjPairs (chain (m :: pts2)).reverse
        ++ adjPairs (chain (m :: pts2).reverse).reverse := by
    rw [hhull2, cyclicPairs_glue, ← hAfull, ← hBfull]
  have hG2 : ∀ q ∈ (m :: pts2),
      ∀ e ∈ cyclicPairs ((chain (m :: pts2)).reverse.dropLast ++
        (chain (m :: pts2).reverse).reverse.dropLast),
      0 ≤ _cross e.1 e.2 q := by
    intro q hq e he
    rw [hcyc] at he
    rcases List.mem_append.mp he with he2 | he2
    · rw [adjPairs_reverse] at he2
      exact hL7 q hq e (List.mem_reverse.mp he2)
    · rw [adjPairs_reverse] at he2
      exact hU7 q hq e (List.mem_reverse.mp he2)
  have hG1 : ∀ x ∈ (chain (m :: pts2)).reverse.dropLast ++
      (chain (m :: pts2).reverse).reverse.dropLast, x ∈ (m :: pts2) := by
    intro x hx
    rcases List.mem_append.mp hx with hx2 | hx2
    · exact hL4 x (List.mem_reverse.mp ((List.dropLast_sublist _).subset hx2))
    · exact hU4 x (List.mem_reverse.mp ((List.dropLast_sublist _).subset hx2))
  refine ⟨hG1, hG2, ?_⟩
  rintro ⟨a, ha, b, hb, c, hc, habc⟩
  have he0 : ((l1, l0) : (α × α) × (α × α))
      ∈ cyclicPairs ((chain (m :: pts2)).reverse.dropLast ++
        (chain (m :: pts2).reverse).reverse.dropLast) := by
    rw [hcyc]
    refine List.mem_append.mpr (Or.inl ?_)
    rw [adjPairs_reverse]
    apply List.mem_reverse.mpr
    rw [hLshape]
    show (l1, l0) ∈ (l1 :: Lr).zip (l0 :: l1 :: Lr)
    exact List.mem_cons_self (l1, l0) (Lr.zip (l1 :: Lr))
  have hl10 : l1 ≠ l0 := by
    have h9 := hL5
    rw [hLshape] at h9
    exact lexLt_ne (List.chain'_cons.mp h9).1
  by_cases hex : ∃ e ∈ cyclicPairs ((chain (m :: pts2)).reverse.dropLast ++
      (chain (m :: pts2).reverse).reverse.dropLast),
      ∃ w ∈ (m :: pts2), 0 < _cross e.1 e.2 w
  · obtain ⟨e, he, w, hw, hpos⟩ := hex
    rw [signedArea2_eq_sum_cross w]
    refine sum_pos_of_mem_pos ?_
      (List.mem_map_of_mem (fun e => _cross w e.1 e.2) he) ?_
    · intro x hx
      obtain ⟨e2, he2, rfl⟩ := List.mem_map.mp hx
      rw [cross_cyclic]
      exact hG2 w hw e2 he2
    · rw [cross_cyclic]
      exact hpos
  · push_neg at hex
    exfalso
    have hz : ∀ w ∈ (m :: pts2), _cross l1 l0 w = 0 := by
      intro w hw
      exact le_antisymm (hex (l1, l0) he0 w hw) (hG2 w hw (l1, l0) he0)
    exact habc (cross_eq_zero_of_on_line hl10 (hz a ha) (hz b hb) (hz c hc))

/-- C6 (amended). `convex_hull` returns a subset of the input points; every
input point lies weakly to the left of every directed cyclic hull edge
(inside or on the boundary of the counter-clockwise hull); and whenever the
input contains three non-collinear points, the hull's doubled signed area is
strictly positive. The last clause is the amendment: for degenerate inputs
(at most two distinct points, or all points collinear) the returned list has
signed area zero, not strictly positive as claimed. -/
theorem C6_convex_hull_invariant (points : List (α × α)) :
    (∀ x ∈ convex_hull points, x ∈ points) ∧
    (∀ q ∈ points, ∀ e ∈ cyclicPairs (convex_hull points),
      0 ≤ _cross e.1 e.2 q) ∧
    ((∃ a ∈ points, ∃ b ∈ points, ∃ c ∈ points, _cross a b c ≠ 0) →
      0 < signedArea2 (convex_hull points)) := by
  have hhull : convex_hull points =
      if (sortedPts points).length ≤ 1 then sortedPts points
      else (chain (sortedPts points)).reverse.dropLast ++
        (chain (sortedPts points).reverse).reverse.dropLast := rfl
  by_cases hlen : (sortedPts points).length ≤ 1
  · rw [hhull, if_pos hlen]
    refine ⟨fun x hx => mem_sortedPts.mp hx, ?_, ?_⟩
    · intro q hq e he
      cases hs : sortedPts points with
      | nil =>
        rw [hs] at he
        cases he
      | cons x t =>
        rw [hs] at he hlen
        rw [List.length_cons] at hlen
        have ht : t = [] := List.length_eq_zero.mp (by omega)
        subst ht
        have h9 : cyclicPairs [x] = [(x, x)] := by
          show [x].zip ([x].rotate 1) = [(x, x)]
          rw [List.rotate_singleton]
          rfl
        rw [h9] at he
        obtain rfl : e = (x, x) := by simpa using he
        exact le_of_eq (cross_self_left x q).symm
    · rintro ⟨a, ha, b, hb, c, hc, habc⟩
      exfalso
      have ha2 : a ∈ sortedPts points := mem_sortedPts.mpr ha
      have hb2 : b ∈ sortedPts points := mem_sortedPts.mpr hb
      cases hs : sortedPts points with
      | nil =>
        rw [hs] at ha2
        cases ha2
      | cons x t =>
        rw [hs] at ha2 hb2 hlen
        rw [List.length_cons] at hlen
        have ht : t = [] := List.length_eq_zero.mp (by omega)
        subst ht
        obtain rfl : a = x := by simpa using ha2
        obtain rfl : b = a := by simpa using hb2
        exact habc (cross_self_left _ _)
  · push_neg at hlen
    obtain ⟨hG1, hG2, hG3⟩ := hull_core (sortedPts points)
      (sortedPts_pairwise_lt points) hlen
    rw [hhull, if_neg (not_le.mpr hlen)]
    refine ⟨fun x hx => mem_sortedPts.mp (hG1 x hx),
      fun q hq e he => hG2 q (mem_sortedPts.mpr hq) e he, ?_⟩
    rintro ⟨a, ha, b, hb, c, hc, habc⟩
    exact hG3 ⟨a, mem_sortedPts.mpr ha, b, mem_sortedPts.mpr hb,
      c, mem_sortedPts.mpr hc, habc⟩

end HullProofs4

/-- C6 counterexample: on the two-point input `[(0,0), (1,0)]` the hull is
the degenerate polygon `[(0,0), (1,0)]` and its doubled signed area is `0`,
refuting the unconditional strict positivity (counter-clockwise order)
claimed for every finite point set. -/
theorem C6_counterexample :
    convex_hull [((0 : ℚ), (0 : ℚ)), (1, 0)] = [(0, 0), (1, 0)] ∧
    ¬ 0 < signedArea2 (convex_hull [((0 : ℚ), (0 : ℚ)), (1, 0)]) := by
  constructor
  · with_unfolding_all decide
  · with_unfolding_all decide

/-- C6 witness: on a concrete non-degenerate triangle the amended hull
invariant yields a strictly positive doubled signed area. -/
theorem C6_witness :
    0 < signedArea2 (convex_hull [((0 : ℚ), (0 : ℚ)), (2, 0), (0, 2)]) := by
  refine (C6_convex_hull_invariant
    [((0 : ℚ), (0 : ℚ)), (2, 0), (0, 2)]).2.2
    ⟨(0, 0), by simp, (2, 0), by simp, (0, 2), by simp, ?_⟩
  show (2 - 0 : ℚ) * (2 - 0) - (0 - 0) * (0 - 0) ≠ 0
  norm_num

end PTD
